import Mathlib

/-!
Verification of the ingestion-and-search core of the fhir-community-search
repository.  The TypeScript sources are shallowly embedded: raw JSON-ish
values become the inductive `JVal`, the SQLite tables become lists of row
structures, and each ingestion or query routine becomes a pure Lean
function translated line by line from its source.
-/

namespace FhirSearch

/-- A JavaScript/JSON value as the downloaders receive it from the remote
APIs.  `undef` models the JavaScript `undefined` (an absent field), which
the code distinguishes from `null`. -/
inductive JVal where
  | undef
  | null
  | bool (b : Bool)
  | num (n : Int)
  | str (s : String)
  | arr (elems : List JVal)
  | obj (fields : List (String × JVal))
deriving Repr

/-- `v` is the JavaScript `null`. -/
def isNull : JVal → Bool
  | .null => true
  | _ => false

/-- `v` is the JavaScript `undefined`. -/
def isUndef : JVal → Bool
  | .undef => true
  | _ => false

/-- JavaScript member access `v[k]`: field lookup on an object, `undefined`
on everything else (the sources only access fields behind guards or
optional chains). -/
def getField : JVal → String → JVal
  | .obj fs, k =>
    match fs.find? (fun p => p.1 == k) with
    | some p => p.2
    | none => .undef
  | _, _ => JVal.undef

/-- JavaScript truthiness. -/
def truthy : JVal → Bool
  | .undef => false
  | .null => false
  | .bool b => b
  | .num n => n != 0
  | .str s => s != ""
  | .arr _ => true
  | .obj _ => true

/-- JavaScript `a || b`. -/
def jsOr (a b : JVal) : JVal :=
  if truthy a then a else b

/-- JavaScript optional chain `x?.k`: `undefined` when `x` is `null` or
`undefined`, otherwise member access. -/
def optChain (x : JVal) (k : String) : JVal :=
  match x with
  | .null => .undef
  | .undef => .undef
  | v => getField v k

/-- `val?.length > 0` as the sources use it on arrays and strings. -/
def lengthPos : JVal → Bool
  | .arr xs => !xs.isEmpty
  | .str s => s != ""
  | _ => false

/-- The object branch of `extractValue` in part_003: issue references,
user objects, option objects and name-carrying objects are reduced; other
objects are kept as-is.  This branch does not recurse. -/
def extractObjVal (v : JVal) : JVal :=
  if truthy (getField v "key") && truthy (getField v "fields") then
    .obj [("key", getField v "key"),
          ("summary", getField (getField v "fields") "summary"),
          ("status", optChain (getField (getField v "fields") "status") "name"),
          ("type", optChain (getField (getField v "fields") "issuetype") "name")]
  else if truthy (getField v "displayName") && truthy (getField v "name") then
    .obj [("name", getField v "displayName"), ("username", getField v "name")]
  else if !isUndef (getField v "value") then getField v "value"
  else if !isUndef (getField v "name") then getField v "name"
  else v

mutual

/-- `extractValue` from part_003: `null`/`undefined` collapse to `null`,
arrays are recursively extracted with `null` results dropped (an empty
result becomes `null`), objects go through `extractObjVal`, scalars pass
through. -/
def extractValue : JVal → JVal
  | .undef => .null
  | .null => .null
  | .bool b => .bool b
  | .num n => .num n
  | .str s => .str s
  | .arr xs =>
    let ex := extractValueList xs
    if ex.isEmpty then .null else .arr ex
  | .obj fs => extractObjVal (.obj fs)

/-- `val.map(v => extractValue(v)).filter(v => v !== null)` on an array is
recursively extracted elementwise with `null` results dropped. -/
def extractValueList : List JVal → List JVal
  | [] => []
  | x :: xs =>
    let e := extractValue x
    if isNull e then extractValueList xs else e :: extractValueList xs

end

/-- `FIELD_MAP` from part_003, in source order: Jira custom field id to
semantic name. -/
def FIELD_MAP : List (String × String) :=
  [("customfield_10902", "selected_ballot"),
   ("customfield_11402", "grouping"),
   ("customfield_10510", "resolution_vote"),
   ("customfield_10525", "vote_date"),
   ("customfield_11302", "specification"),
   ("customfield_11808", "raised_in_version"),
   ("customfield_11807", "applied_for_version"),
   ("customfield_11400", "work_group"),
   ("customfield_11300", "related_artifacts"),
   ("customfield_10618", "resolution_description"),
   ("customfield_10512", "change_category"),
   ("customfield_10511", "change_impact"),
   ("customfield_10702", "outstanding_negatives"),
   ("customfield_10704", "pre_applied"),
   ("customfield_10612", "related_url"),
   ("customfield_11301", "related_pages"),
   ("customfield_10518", "related_sections"),
   ("customfield_14905", "related_issues"),
   ("customfield_14909", "duplicate_of"),
   ("customfield_11000", "in_person_requested_by")]

/-- `SKIP_FIELDS` from part_003. -/
def SKIP_FIELDS : List String :=
  ["customfield_11200", "customfield_14904", "customfield_14600",
   "customfield_10000", "customfield_10500", "customfield_10001",
   "customfield_10002", "customfield_14000", "customfield_14400",
   "customfield_14401", "customfield_14402", "customfield_14403",
   "customfield_14404", "customfield_11401", "customfield_11101",
   "customfield_11102", "customfield_11103", "customfield_11105",
   "customfield_11106", "customfield_11600", "customfield_11601",
   "customfield_11602", "customfield_11800", "customfield_11801",
   "customfield_11803", "customfield_14906", "customfield_14907",
   "customfield_14908", "workratio", "watches", "lastViewed",
   "archiveddate", "archivedby", "project"]

/-- A canonical JSON document: an ordered record of fields, as built by
`transformIssue`. -/
abbrev DocT := List (String × JVal)

/-- JavaScript property assignment `doc[k] = v`: replace the existing
entry in place, or append a fresh one. -/
def setK : DocT → String → JVal → DocT
  | [], k, v => [(k, v)]
  | p :: t, k, v => if p.1 = k then (k, v) :: t else p :: setK t k v

/-- Property read on a document record; `none` when the key is absent. -/
def lookupD (d : DocT) (k : String) : Option JVal :=
  (d.find? (fun p => p.1 == k)).map (fun p => p.2)

/-- A raw Jira issue as returned by the search API. -/
structure RawIssue where
  key : String
  fields : JVal
deriving Repr

/-- `transformIssue` from part_003, line by line. -/
def transformIssue (raw : RawIssue) : DocT :=
  let f := raw.fields
  let g := fun k => getField f k
  let d : DocT :=
    [("key", .str raw.key),
     ("url", .str ("https://jira.hl7.org/browse/" ++ raw.key))]
  let d := setK d "summary" (jsOr (g "summary") .null)
  let d := setK d "description" (jsOr (g "description") .null)
  let d := setK d "status" (extractValue (g "status"))
  let d := setK d "resolution" (extractValue (g "resolution"))
  let d := setK d "priority" (extractValue (g "priority"))
  let d := setK d "issue_type" (extractValue (g "issuetype"))
  let d := setK d "created_at" (jsOr (g "created") .null)
  let d := setK d "updated_at" (jsOr (g "updated") .null)
  let d := setK d "resolved_at" (jsOr (g "resolutiondate") .null)
  let d := setK d "reporter" (extractValue (g "reporter"))
  let d := setK d "assignee" (extractValue (g "assignee"))
  let d := setK d "creator" (extractValue (g "creator"))
  let d := setK d "labels" (if lengthPos (g "labels") then g "labels" else .null)
  let comps : JVal :=
    match g "components" with
    | .arr xs => .arr ((xs.map (fun c => getField c "name")).filter (fun v => truthy v))
    | _ => .undef
  let d := setK d "components" comps
  let d :=
    match comps with
    | .arr [] => setK d "components" .null
    | _ => d
  let d :=
    match g "attachment" with
    | .arr xs =>
      if !xs.isEmpty then
        setK d "attachments" (.arr (xs.map (fun a =>
          .obj [("filename", getField a "filename"),
                ("size", getField a "size"),
                ("url", getField a "content"),
                ("created", getField a "created")])))
      else d
    | _ => d
  let comments : List JVal :=
    match getField (g "comment") "comments" with
    | .arr xs => xs
    | _ => []
  let d :=
    if !comments.isEmpty then
      setK d "comments" (.arr (comments.map (fun c =>
        .obj [("author", extractValue (getField c "author")),
              ("body", getField c "body"),
              ("created_at", getField c "created")])))
    else d
  let d :=
    match g "subtasks" with
    | .arr xs =>
      if !xs.isEmpty then
        setK d "subtasks" (.arr (xs.map (fun s =>
          .obj [("key", getField s "key"),
                ("summary", optChain (getField s "fields") "summary"),
                ("status", optChain (optChain (getField s "fields") "status") "name")])))
      else d
    | _ => d
  let d :=
    match g "issuelinks" with
    | .arr xs =>
      if !xs.isEmpty then
        let links := (xs.map (fun link =>
          let target := jsOr (getField link "outwardIssue") (getField link "inwardIssue")
          let outward := truthy (getField link "outwardIssue")
          JVal.obj [("relation",
                      if outward then optChain (getField link "type") "outward"
                      else optChain (getField link "type") "inward"),
                    ("direction", .str (if outward then "outward" else "inward")),
                    ("target_key", optChain target "key"),
                    ("target_summary", optChain (optChain target "fields") "summary"),
                    ("target_status",
                      optChain (optChain (optChain target "fields") "status") "name")])).filter
            (fun l => truthy (getField l "target_key"))
        let d := setK d "issue_links" (.arr links)
        if links.isEmpty then setK d "issue_links" .undef else d
      else d
    | _ => d
  FIELD_MAP.foldl (fun d p =>
    let v := extractValue (g p.1)
    if !isNull v && !isUndef v then setK d p.2 v else d) d

/-- The keys `JSON.stringify` serializes: entries whose value is not
`undefined`. -/
def docKeys (d : DocT) : List String :=
  (d.filter (fun p => !isUndef p.2)).map (fun p => p.1)

mutual

/-- The element conversion JavaScript `Array.prototype.join` applies:
`null` and `undefined` become empty, other values their string form
(arrays stringify as their comma-joined elements). -/
def jsElemStr : JVal → String
  | .undef => ""
  | .null => ""
  | .bool b => if b then "true" else "false"
  | .num n => toString n
  | .str s => s
  | .arr xs => jsElemStrList xs
  | .obj _ => "[object Object]"

/-- Comma-join of converted elements, for nested array stringification. -/
def jsElemStrList : List JVal → String
  | [] => ""
  | [x] => jsElemStr x
  | x :: y :: xs => jsElemStr x ++ "," ++ jsElemStrList (y :: xs)

end

/-- JavaScript `xs.join(sep)`. -/
def jsJoin (sep : String) (xs : List JVal) : String :=
  String.intercalate sep (xs.map jsElemStr)

/-- Property access on the in-memory document object (`doc.k`):
`undefined` when absent. -/
def getD (d : DocT) (k : String) : JVal :=
  (lookupD d k).getD JVal.undef

/-- The key column value bound for a document: `doc.key`, which
`transformIssue` always sets to the raw issue key string. -/
def getKeyString (d : DocT) : String :=
  match lookupD d "key" with
  | some (.str s) => s
  | _ => ""

/-- `Array.isArray(v) ? v.join(sep) : (v || "")` from `insertIssue` in
part_003. -/
def joinedOrSelf (sep : String) (v : JVal) : JVal :=
  match v with
  | .arr xs => .str (jsJoin sep xs)
  | v => jsOr v (.str "")

/-- `doc.comments?.map(c => c.body).join("\n") || ""` from `insertIssue`
in part_003. -/
def commentsTextOf (d : DocT) : JVal :=
  match getD d "comments" with
  | .arr xs => jsOr (.str (jsJoin "\n" (xs.map (fun c => getField c "body")))) (.str "")
  | _ => .str ""

/-- One row of the contentless `issues_fts` FTS5 table of part_003. -/
structure Fts3Row where
  key : String
  summary : JVal
  description : JVal
  specification : JVal
  work_group : JVal
  related_artifacts : JVal
  resolution_description : JVal
  labels : JVal
  comments_text : JVal
deriving Repr

/-- The index projection `insertIssue` (part_003) derives from a document:
the values it binds into the `issues_fts` insert. -/
def projFts3 (doc : DocT) : Fts3Row :=
  { key := getKeyString doc,
    summary := jsOr (getD doc "summary") (.str ""),
    description := jsOr (getD doc "description") (.str ""),
    specification := joinedOrSelf " " (getD doc "specification"),
    work_group := joinedOrSelf " " (getD doc "work_group"),
    related_artifacts := joinedOrSelf " " (getD doc "related_artifacts"),
    resolution_description := jsOr (getD doc "resolution_description") (.str ""),
    labels := joinedOrSelf " " (getD doc "labels"),
    comments_text := commentsTextOf doc }

/-- The part_003 database: the `issues` table (key plus JSON document) and
the `issues_fts` table. -/
structure Store3 where
  issues : List (String × DocT)
  fts : List Fts3Row

/-- `INSERT OR REPLACE` into a table with primary key `key`: replace the
row with the same key, or append. -/
def upsertBy {α κ : Type} [DecidableEq κ] (key : α → κ) : List α → α → List α
  | [], r => [r]
  | x :: t, r => if key x = key r then r :: t else x :: upsertBy key t r

/-- The empty part_003 database, as `createDatabase` makes it. -/
def emptyStore3 : Store3 :=
  { issues := [], fts := [] }

/-- `insertIssue` from part_003: replace the document row, then delete the
old FTS entry for the key and insert the fresh projection — all inside the
caller's transaction. -/
def insertIssue3 (s : Store3) (issue : RawIssue) : Store3 :=
  let doc := transformIssue issue
  let k := getKeyString doc
  { issues := upsertBy Prod.fst s.issues (k, doc),
    fts := (s.fts.filter (fun r => r.key != k)) ++ [projFts3 doc] }

/-- `getResumePoint` from part_003 and `jira/download.ts`:
`SELECT COUNT(*) FROM issues`. -/
def getResumePoint3 (s : Store3) : Nat :=
  s.issues.length

/-- JavaScript `v || ""` under the string return type the helpers in
`jira/download.ts` declare. -/
def jsStrOr (v : JVal) : String :=
  if truthy v then jsElemStr v else ""

/-- `arrayToStr` from `jira/download.ts`. -/
def arrayToStr (v : JVal) : String :=
  match v with
  | .arr xs => jsJoin "," xs
  | v => jsStrOr v

/-- `optionToStr` from `jira/download.ts`. -/
def optionToStr (v : JVal) : String :=
  match v with
  | .arr _ => jsStrOr (jsOr (getField v "value") (getField v "name"))
  | .obj _ => jsStrOr (jsOr (getField v "value") (getField v "name"))
  | v => jsStrOr v

/-- `safeGet` from `jira/download.ts`: walk a key path, returning the
empty string as soon as the current value is `null`/`undefined`
(JavaScript `== null`), else `current || ""` at the end. -/
def safeGet : JVal → List String → String
  | v, [] => jsStrOr v
  | v, k :: ks =>
    match v with
    | .null => ""
    | .undef => ""
    | v => safeGet (getField v k) ks

/-- `f.comment?.comments || []` as both Jira downloaders read the raw
comment list. -/
def rawComments (i : RawIssue) : List JVal :=
  match getField (getField i.fields "comment") "comments" with
  | .arr xs => xs
  | _ => []

/-- One row of the column-per-field `issues` table of `jira/download.ts`. -/
structure CJIssueRow where
  key : String
  summary : String
  description : String
  status : String
  resolution : String
  priority : String
  issue_type : String
  reporter_name : String
  reporter_username : String
  assignee_name : String
  assignee_username : String
  created_at : String
  updated_at : String
  resolved_at : String
  specification : String
  raised_in_version : String
  related_artifact : String
  work_group : String
  applied_for_version : String
  resolution_description : String
  resolution_vote : String
  change_category : String
  change_impact : String
  vote_date : String
  related_url : String
  related_pages : String
  related_sections : String
  labels : String
  components : String
  comment_count : Nat
deriving Repr, DecidableEq

/-- The issue row `insertIssue` in `jira/download.ts` binds. -/
def mkIssueRowCJ (i : RawIssue) : CJIssueRow :=
  let g := fun k => getField i.fields k
  { key := i.key,
    summary := jsStrOr (g "summary"),
    description := jsStrOr (g "description"),
    status := safeGet i.fields ["status", "name"],
    resolution := safeGet i.fields ["resolution", "name"],
    priority := safeGet i.fields ["priority", "name"],
    issue_type := safeGet i.fields ["issuetype", "name"],
    reporter_name := safeGet i.fields ["reporter", "displayName"],
    reporter_username := safeGet i.fields ["reporter", "name"],
    assignee_name := safeGet i.fields ["assignee", "displayName"],
    assignee_username := safeGet i.fields ["assignee", "name"],
    created_at := jsStrOr (g "created"),
    updated_at := jsStrOr (g "updated"),
    resolved_at := jsStrOr (g "resolutiondate"),
    specification := arrayToStr (g "customfield_11302"),
    raised_in_version := arrayToStr (g "customfield_11808"),
    related_artifact := arrayToStr (g "customfield_11300"),
    work_group := arrayToStr (g "customfield_11400"),
    applied_for_version := arrayToStr (g "customfield_11807"),
    resolution_description := jsStrOr (g "customfield_10618"),
    resolution_vote := jsStrOr (g "customfield_10510"),
    change_category := optionToStr (g "customfield_10512"),
    change_impact := optionToStr (g "customfield_10511"),
    vote_date := jsStrOr (g "customfield_10525"),
    related_url := jsStrOr (g "customfield_10612"),
    related_pages := arrayToStr (g "customfield_11301"),
    related_sections := jsStrOr (g "customfield_10518"),
    labels := arrayToStr (g "labels"),
    components := arrayToStr (match g "components" with
      | .arr xs => .arr (xs.map (fun c => getField c "name"))
      | _ => .undef),
    comment_count := (rawComments i).length }

/-- One row of the `comments` table of `jira/download.ts`; `id` is the
SQLite `AUTOINCREMENT` primary key. -/
structure CommentRow where
  id : Nat
  issue_key : String
  author_name : String
  author_username : String
  body : String
  created_at : String
deriving Repr, DecidableEq

/-- A comment row minus its auto-generated id. -/
structure CommentContent where
  issue_key : String
  author_name : String
  author_username : String
  body : String
  created_at : String
deriving Repr, DecidableEq

/-- Forget the auto-generated id of a comment row. -/
def commentContent (c : CommentRow) : CommentContent :=
  { issue_key := c.issue_key, author_name := c.author_name,
    author_username := c.author_username, body := c.body,
    created_at := c.created_at }

/-- The comment row `insertIssue` in `jira/download.ts` binds for one raw
comment. -/
def mkCommentRow (cid : Nat) (key : String) (c : JVal) : CommentRow :=
  { id := cid,
    issue_key := key,
    author_name := safeGet c ["author", "displayName"],
    author_username := safeGet c ["author", "name"],
    body := jsStrOr (getField c "body"),
    created_at := jsStrOr (getField c "created") }

/-- The `jira/download.ts` database: `issues` and `comments` tables plus
the `AUTOINCREMENT` sequence for comment ids.  Its `issues_fts` table has
external content and is populated only by the end-of-run rebuild, so it is
derived, not tracked per insert. -/
structure CJStore where
  issues : List CJIssueRow
  nextCid : Nat
  comments : List CommentRow
deriving Repr, DecidableEq

/-- `INSERT OR REPLACE INTO issues` keyed by `key`. -/
def upsertRowCJ (l : List CJIssueRow) (r : CJIssueRow) : List CJIssueRow :=
  upsertBy CJIssueRow.key l r

/-- `insertIssue` from `jira/download.ts`: replace the issue row, delete
the comments for the key, re-insert them with fresh `AUTOINCREMENT` ids. -/
def insertIssueCJ (s : CJStore) (i : RawIssue) : CJStore :=
  let cs := rawComments i
  { issues := upsertRowCJ s.issues (mkIssueRowCJ i),
    nextCid := s.nextCid + cs.length,
    comments := (s.comments.filter (fun c => c.issue_key != i.key)) ++
      cs.enum.map (fun p => mkCommentRow (s.nextCid + p.1) i.key p.2) }

/-- `SELECT COUNT(*) FROM issues` on the column store. -/
def getResumePointCJ (s : CJStore) : Nat :=
  s.issues.length

/-- Committing one fetched batch: the `BEGIN`/`insertIssue*`/`COMMIT`
block of `main` in `jira/download.ts`. -/
def insertBatchCJ (s : CJStore) (b : List RawIssue) : CJStore :=
  b.foldl insertIssueCJ s

/-- The observable outcome of one `fetchBatch` attempt in the Jira
download loop. -/
inductive JFetchOutcome where
  | batch (issues : List RawIssue)
  | authFail
  | transientFail
deriving Repr

/-- How the Jira download loop ended. -/
inductive JExit where
  | finished
  | aborted (pos : Nat)
  | outOfTrace
deriving Repr, DecidableEq

/-- The `while (startAt < total)` loop of `main` in `jira/download.ts`
(identical in part_003), driven by a trace of fetch outcomes: a committed
batch advances `startAt` by its length; a transient error rolls back and
retries from the same position; a 401/403 rolls back and breaks, reporting
the current position. -/
def jiraRun (total : Nat) (s : CJStore) (pos : Nat) :
    List JFetchOutcome → (CJStore × Nat) × JExit
  | [] => if pos < total then ((s, pos), .outOfTrace) else ((s, pos), .finished)
  | .batch b :: rest =>
    if pos < total then jiraRun total (insertBatchCJ s b) (pos + b.length) rest
    else ((s, pos), .finished)
  | .transientFail :: rest =>
    if pos < total then jiraRun total s pos rest
    else ((s, pos), .finished)
  | .authFail :: _ =>
    if pos < total then ((s, pos), .aborted pos) else ((s, pos), .finished)

/-- A stream record from the Zulip `/streams` endpoint. -/
structure ZulipStream where
  stream_id : Nat
  name : String
  description : String
  is_web_public : Bool
  message_retention_days : Option Int
deriving Repr, DecidableEq

/-- A message record from the Zulip `/messages` endpoint; a reaction is an
emoji name plus a user id. -/
structure ZulipMessage where
  id : Nat
  sender_id : Nat
  sender_full_name : String
  sender_email : String
  content : String
  subject : String
  timestamp : Nat
  stream_id : Nat
  display_recipient : String
  reactions : List (String × Nat)
deriving Repr, DecidableEq

/-- One row of the `streams` table of `zulip/download.ts`. -/
structure ZStreamRow where
  id : Nat
  name : String
  description : String
  is_web_public : Bool
  message_count : Nat
deriving Repr, DecidableEq

/-- One row of the `messages` table of `zulip/download.ts`; `id` is the
Zulip message id used as primary key. -/
structure ZMsgRow where
  id : Nat
  stream_id : Nat
  stream_name : String
  topic : String
  sender_id : Nat
  sender_name : String
  sender_email : String
  content : String
  timestamp : Nat
  created_at : String
  reactions : Option String
deriving Repr, DecidableEq

/-- One row of the external-content `messages_fts` table; its rowid is the
message id (`content_rowid='id'`). -/
structure ZFtsRow where
  rowid : Nat
  stream_name : String
  topic : String
  sender_name : String
  content : String
deriving Repr, DecidableEq

/-- The `zulip/download.ts` database. -/
structure ZStore where
  streams : List ZStreamRow
  messages : List ZMsgRow
  fts : List ZFtsRow
deriving Repr, DecidableEq

/-- The external serializations `insertMessages` delegates to the runtime:
`new Date(ts * 1000).toISOString()` and `JSON.stringify` of the reaction
list.  They are parameters of the embedding, not reimplemented. -/
structure ZRender where
  iso : Nat → String
  rjson : List (String × Nat) → String

/-- `INSERT OR REPLACE INTO streams` keyed by `id`. -/
def upsertStreamRow (l : List ZStreamRow) (r : ZStreamRow) : List ZStreamRow :=
  upsertBy ZStreamRow.id l r

/-- `INSERT OR REPLACE INTO messages` keyed by `id`. -/
def upsertMsgRow (l : List ZMsgRow) (r : ZMsgRow) : List ZMsgRow :=
  upsertBy ZMsgRow.id l r

/-- `insertStream` from `zulip/download.ts`; the `REPLACE` leaves the
unlisted `message_count` column at its default 0. -/
def insertStream (db : ZStore) (st : ZulipStream) : ZStore :=
  let row : ZStreamRow :=
    { id := st.stream_id, name := st.name, description := st.description,
      is_web_public := st.is_web_public, message_count := 0 }
  { db with streams := upsertStreamRow db.streams row }

/-- The message row `insertMessages` binds for one raw message. -/
def mkMsgRow (rd : ZRender) (m : ZulipMessage) : ZMsgRow :=
  { id := m.id, stream_id := m.stream_id, stream_name := m.display_recipient,
    topic := m.subject, sender_id := m.sender_id,
    sender_name := m.sender_full_name, sender_email := m.sender_email,
    content := m.content, timestamp := m.timestamp,
    created_at := rd.iso m.timestamp,
    reactions := if m.reactions.isEmpty then none else some (rd.rjson m.reactions) }

/-- `insertMessages` from `zulip/download.ts`. -/
def insertMessages (rd : ZRender) (db : ZStore) (msgs : List ZulipMessage) : ZStore :=
  { db with messages := msgs.foldl (fun t m => upsertMsgRow t (mkMsgRow rd m)) db.messages }

/-- `getLastMessageId` from `zulip/download.ts`:
`SELECT MAX(id) ... WHERE stream_id = ?`, with the JavaScript
`row?.max_id || null` collapsing both `NULL` and `0` to `null`. -/
def getLastMessageId (db : ZStore) (streamId : Nat) : Option Nat :=
  let m := ((db.messages.filter (fun r => r.stream_id == streamId)).map
    (fun r => r.id)).foldr max 0
  if m == 0 then none else some m

/-- A fetch anchor for the Zulip `/messages` endpoint. -/
inductive ZAnchor where
  | oldest
  | atId (i : Nat)
deriving Repr, DecidableEq

/-- The anchor `downloadWithApi` chooses for one stream: the last durably
stored message id when resuming and one exists, otherwise the `"oldest"`
sentinel. -/
def zulipResumeAnchor (db : ZStore) (resume : Bool) (streamId : Nat) : ZAnchor :=
  if resume then
    match getLastMessageId db streamId with
    | some i => .atId i
    | none => .oldest
  else .oldest

/-- The observable outcome of one `getMessages` attempt.  `failure` is any
thrown error — network, rate limit, 5xx, or an authentication 401/403 —
since the single `catch` in `downloadWithApi` does not distinguish them. -/
inductive ZFetchOutcome where
  | batch (messages : List ZulipMessage) (found_newest : Bool)
  | failure
deriving Repr

/-- The `while (!foundNewest)` loop of `downloadWithApi` for one stream,
driven by a trace of fetch outcomes: an empty batch breaks, a batch is
committed and the loop continues unless `found_newest`, and any error
rolls back the in-flight batch and breaks out of the stream. -/
def zulipStreamLoop (rd : ZRender) (db : ZStore) : List ZFetchOutcome → ZStore
  | [] => db
  | .batch msgs fn :: rest =>
    if msgs.isEmpty then db
    else
      let db2 := insertMessages rd db msgs
      if fn then db2 else zulipStreamLoop rd db2 rest
  | .failure :: _ => db

/-- The FTS row the end-of-run
`INSERT INTO messages_fts(messages_fts) VALUES('rebuild')` derives from a
message row. -/
def projZfts (r : ZMsgRow) : ZFtsRow :=
  { rowid := r.id, stream_name := r.stream_name, topic := r.topic,
    sender_name := r.sender_name, content := r.content }

/-- The end-of-run `INSERT INTO messages_fts(messages_fts)
VALUES('rebuild')`: the external-content index is rebuilt to exactly one
entry per messages row. -/
def rebuildZfts (db : ZStore) : ZStore :=
  { db with fts := db.messages.map projZfts }

/-- `updateStreamCounts` from `zulip/download.ts`. -/
def updateStreamCounts (db : ZStore) : ZStore :=
  { db with streams := db.streams.map (fun st =>
      { st with message_count :=
          (db.messages.filter (fun m => m.stream_id == st.id)).length }) }

/-- `downloadWithApi` from `zulip/download.ts`: filter to web-public
streams, upsert their rows, download each stream in turn from its trace of
fetch outcomes, then rebuild the FTS index from the messages table and
refresh stream counts.  `db0` is the empty store on a fresh run or the
existing one under `--resume`. -/
def zulipRun (rd : ZRender) (allStreams : List ZulipStream)
    (traces : Nat → List ZFetchOutcome) (db0 : ZStore) : ZStore :=
  let streams := allStreams.filter (fun s => s.is_web_public)
  let db1 := streams.foldl insertStream db0
  let db2 := streams.foldl (fun db st => zulipStreamLoop rd db (traces st.stream_id)) db1
  updateStreamCounts (rebuildZfts db2)

/-- The empty database a fresh (non-resume) run creates. -/
def emptyZStore : ZStore :=
  { streams := [], messages := [], fts := [] }

/-- Substring test on character lists: the first list occurs contiguously
in the second. -/
def isSubChars : List Char → List Char → Bool
  | [], _ => true
  | _ :: _, [] => false
  | n, c :: t => if n.isPrefixOf (c :: t) then true else isSubChars n t

/-- SQLite `column LIKE '%pat%'` with the default ASCII-case-insensitive
collation (Lean's `Char.toLower` lowercases exactly ASCII, as SQLite
does). -/
def likeCI (hay pat : String) : Bool :=
  isSubChars (pat.data.map Char.toLower) (hay.data.map Char.toLower)

/-- Lexicographic byte-order comparison of character lists: SQLite compares
`TEXT` values by `memcmp` of their UTF-8 encodings, which coincides with
codepoint-lexicographic order. -/
def listLeB : List Char → List Char → Bool
  | [], _ => true
  | _ :: _, [] => false
  | c :: cs, d :: ds =>
    if c.toNat < d.toNat then true
    else if d.toNat < c.toNat then false
    else listLeB cs ds

/-- SQLite `TEXT` comparison `a <= b`. -/
def strLeB (a b : String) : Bool :=
  listLeB a.data b.data

theorem listLeB_total : ∀ a b : List Char, listLeB a b = true ∨ listLeB b a = true := by
  intro a
  induction a with
  | nil => intro b; exact Or.inl rfl
  | cons c cs ih =>
    intro b
    cases b with
    | nil => exact Or.inr rfl
    | cons d ds =>
      by_cases h1 : c.toNat < d.toNat
      · exact Or.inl (by simp [listLeB, h1])
      · by_cases h2 : d.toNat < c.toNat
        · exact Or.inr (by simp [listLeB, h2])
        · have h3 : ¬ d.toNat < c.toNat := h2
          rcases ih ds with h | h
          · exact Or.inl (by simp [listLeB, h1, h2, h])
          · exact Or.inr (by simp [listLeB, h1, h3, h])

theorem listLeB_trans :
    ∀ a b c : List Char, listLeB a b = true → listLeB b c = true →
      listLeB a c = true := by
  intro a
  induction a with
  | nil => intro b c _ _; rfl
  | cons x xs ih =>
    intro b c hab hbc
    cases b with
    | nil => simp [listLeB] at hab
    | cons y ys =>
      cases c with
      | nil => simp [listLeB] at hbc
      | cons z zs =>
        by_cases h1 : x.toNat < y.toNat <;> by_cases h2 : y.toNat < z.toNat
        · simp [listLeB, show x.toNat < z.toNat by omega]
        · by_cases h3 : z.toNat < y.toNat
          · simp [listLeB, h2, h3] at hbc
          · have : y.toNat = z.toNat := by omega
            simp [listLeB, show x.toNat < z.toNat by omega]
        · by_cases h4 : y.toNat < x.toNat
          · simp [listLeB, h1, h4] at hab
          · have : x.toNat = y.toNat := by omega
            simp [listLeB, show x.toNat < z.toNat by omega]
        · by_cases h4 : y.toNat < x.toNat
          · simp [listLeB, h1, h4] at hab
          · by_cases h3 : z.toNat < y.toNat
            · simp [listLeB, h2, h3] at hbc
            · have hxz : ¬ x.toNat < z.toNat := by omega
              have hzx : ¬ z.toNat < x.toNat := by omega
              simp only [listLeB, if_neg h1, if_neg h4] at hab
              simp only [listLeB, if_neg h2, if_neg h3] at hbc
              simp only [listLeB, if_neg hxz, if_neg hzx]
              exact ih ys zs hab hbc

theorem strLeB_total (a b : String) : strLeB a b = true ∨ strLeB b a = true :=
  listLeB_total a.data b.data

theorem strLeB_trans {a b c : String} (h1 : strLeB a b = true)
    (h2 : strLeB b c = true) : strLeB a c = true :=
  listLeB_trans a.data b.data c.data h1 h2

/-- `ORDER BY (f row) DESC` as a sorting relation. -/
def descStr {α : Type} (f : α → String) (a b : α) : Prop :=
  strLeB (f b) (f a) = true

/-- `ORDER BY (f row) ASC` as a sorting relation. -/
def ascStr {α : Type} (f : α → String) (a b : α) : Prop :=
  strLeB (f a) (f b) = true

instance {α : Type} (f : α → String) : DecidableRel (descStr f) :=
  fun _ _ => inferInstanceAs (Decidable (_ = true))

instance {α : Type} (f : α → String) : DecidableRel (ascStr f) :=
  fun _ _ => inferInstanceAs (Decidable (_ = true))

instance {α : Type} (f : α → String) : IsTotal α (descStr f) :=
  ⟨fun a b => strLeB_total (f b) (f a)⟩

instance {α : Type} (f : α → String) : IsTotal α (ascStr f) :=
  ⟨fun a b => strLeB_total (f a) (f b)⟩

instance {α : Type} (f : α → String) : IsTrans α (descStr f) :=
  ⟨fun _ _ _ h1 h2 => strLeB_trans h2 h1⟩

instance {α : Type} (f : α → String) : IsTrans α (ascStr f) :=
  ⟨fun _ _ _ h1 h2 => strLeB_trans h1 h2⟩

/-- `searchResource` from the first `jira/search.ts`:
`WHERE related_artifact LIKE '%r%' ORDER BY created_at DESC LIMIT n`. -/
def searchResource (s : CJStore) (resource : String) (limit : Nat) : List CJIssueRow :=
  (List.insertionSort (descStr CJIssueRow.created_at)
    (s.issues.filter (fun r => likeCI r.related_artifact resource))).take limit

/-- `searchBreaking` from the first `jira/search.ts`:
`WHERE change_impact = 'Non-compatible' [AND raised_in_version LIKE %v%]
ORDER BY resolved_at DESC LIMIT n`. -/
def searchBreaking (s : CJStore) (version : Option String) (limit : Nat) : List CJIssueRow :=
  match version with
  | some v =>
    (List.insertionSort (descStr CJIssueRow.resolved_at)
      (s.issues.filter (fun r =>
        r.change_impact == "Non-compatible" && likeCI r.raised_in_version v))).take limit
  | none =>
    (List.insertionSort (descStr CJIssueRow.resolved_at)
      (s.issues.filter (fun r => r.change_impact == "Non-compatible"))).take limit

/-- `searchStatus` from the first `jira/search.ts`:
`WHERE status LIKE '%s%' ORDER BY updated_at DESC LIMIT n`. -/
def searchStatus (s : CJStore) (status : String) (limit : Nat) : List CJIssueRow :=
  (List.insertionSort (descStr CJIssueRow.updated_at)
    (s.issues.filter (fun r => likeCI r.status status))).take limit

/-- `SELECT * FROM issues WHERE key = $key` in the first `jira/search.ts`. -/
def lookupIssueCJ (s : CJStore) (key : String) : Option CJIssueRow :=
  s.issues.find? (fun r => r.key == key)

/-- `getIssue` of the first `jira/search.ts` on its snapshot path: the
issue row, if any, together with all of its comment rows ordered by
`created_at` ascending, bodies untruncated.  `none` reports
"Issue not found". -/
def getIssueSnapshot (s : CJStore) (key : String) : Option (CJIssueRow × List CommentRow) :=
  match lookupIssueCJ s key with
  | none => none
  | some row =>
    some (row, List.insertionSort (ascStr CommentRow.created_at)
      (s.comments.filter (fun c => c.issue_key == key)))

/-- The filter set of `search` in the second `jira/search.ts`. -/
structure SearchFilters where
  query : Option String
  ballot : Option String
  status : Option String
  version : Option String
  resource : Option String
  workGroup : Option String
  impact : Option String
deriving Repr

/-- The all-absent filter set. -/
def noFilters : SearchFilters :=
  { query := none, ballot := none, status := none, version := none,
    resource := none, workGroup := none, impact := none }

/-- `json_extract(data, '$.k')` against a stored document, as an optional
SQL text value: JSON `null` and an absent key give `NULL`; strings extract
to themselves; numbers and booleans to their SQL literals; arrays and
objects to their JSON text, rendered by the serialization parameter
`jtext`. -/
def jxText (jtext : JVal → String) (d : DocT) (k : String) : Option String :=
  match lookupD d k with
  | none => none
  | some .null => none
  | some .undef => none
  | some (.str s) => some s
  | some (.num n) => some (toString n)
  | some (.bool b) => some (if b then "1" else "0")
  | some v => some (jtext v)

/-- `NULL`-aware `LIKE '%pat%'`: `NULL` matches nothing. -/
def likeOpt : Option String → String → Bool
  | none, _ => false
  | some s, pat => likeCI s pat

/-- `NULL`-aware SQL `=`: `NULL` equals nothing. -/
def eqOpt : Option String → String → Bool
  | none, _ => false
  | some s, x => s == x

/-- The ballot key normalization in `search` of the second
`jira/search.ts`. -/
def ballotKeyOf (b : String) : String :=
  if (b.toUpper).startsWith "BALLOT-" then b.toUpper else "BALLOT-" ++ b

/-- The `conditions` array `search` builds, in source push order: one
boolean predicate per supplied structured filter, later joined with
`AND`. -/
def searchConds (jtext : JVal → String) (flt : SearchFilters) : List (DocT → Bool) :=
  (match flt.ballot with
   | some b => [fun d => likeOpt (jxText jtext d "selected_ballot") (ballotKeyOf b)]
   | none => []) ++
  (match flt.status with
   | some st => [fun d => likeOpt (jxText jtext d "status") st]
   | none => []) ++
  (match flt.version with
   | some v => [fun d => likeOpt (jxText jtext d "raised_in_version") v]
   | none => []) ++
  (match flt.resource with
   | some r => [fun d => likeOpt (jxText jtext d "related_artifacts") r]
   | none => []) ++
  (match flt.workGroup with
   | some w => [fun d => likeOpt (jxText jtext d "work_group") w]
   | none => []) ++
  (match flt.impact with
   | some imp => [fun d => eqOpt (jxText jtext d "change_impact") imp]
   | none => [])

/-- `WHERE c1 AND c2 AND ...`. -/
def matchesAll (conds : List (DocT → Bool)) (d : DocT) : Bool :=
  conds.all (fun c => c d)

/-- SQL text comparison on a possibly-`NULL` key, as a boolean: `NULL`
sorts below every text value, so `ORDER BY key DESC` puts `NULL` rows
last. -/
def optKeyLeB : Option String → Option String → Bool
  | none, _ => true
  | some _, none => false
  | some a, some b => strLeB a b

/-- The ordering `optKeyLeB` decides. -/
def optKeyLe (a b : Option String) : Prop :=
  optKeyLeB a b = true

instance : DecidableRel optKeyLe :=
  fun _ _ => inferInstanceAs (Decidable (_ = true))

/-- `ORDER BY json_extract(data, '$.updated_at') DESC` as a sorting
relation on stored documents. -/
def updDesc (jtext : JVal → String) (a b : DocT) : Prop :=
  optKeyLe (jxText jtext b "updated_at") (jxText jtext a "updated_at")

instance (jtext : JVal → String) : DecidableRel (updDesc jtext) :=
  fun _ _ => inferInstanceAs (Decidable (optKeyLe _ _))

theorem optKeyLe_total (a b : Option String) : optKeyLe a b ∨ optKeyLe b a := by
  cases a with
  | none => exact Or.inl rfl
  | some x =>
    cases b with
    | none => exact Or.inr rfl
    | some y => exact strLeB_total x y

theorem optKeyLe_trans {a b c : Option String} :
    optKeyLe a b → optKeyLe b c → optKeyLe a c := by
  cases a with
  | none => intro _ _; rfl
  | some x =>
    cases b with
    | none => intro h _; exact absurd h (by simp [optKeyLe, optKeyLeB])
    | some y =>
      cases c with
      | none => intro _ h; exact absurd h (by simp [optKeyLe, optKeyLeB])
      | some z => exact strLeB_trans

instance (jtext : JVal → String) : IsTotal DocT (updDesc jtext) :=
  ⟨fun _ _ => optKeyLe_total _ _⟩

instance (jtext : JVal → String) : IsTrans DocT (updDesc jtext) :=
  ⟨fun _ _ _ h1 h2 => optKeyLe_trans h2 h1⟩

/-- `search` from the second `jira/search.ts`.  `jtext` renders compound
JSON values as SQLite does; `ftsRanked q` is the rank-ordered list of
stored documents whose index entry matches the FTS5 expression `q`, i.e.
the `issues_fts MATCH $query ... ORDER BY fts.rank` join supplied by the
FTS5 extension.  With a full-text expression the structured conditions are
an additional `AND` over that join; without one, the issues table is
filtered and ordered by `updated_at` descending.  Either way the result is
truncated to `LIMIT $limit`. -/
def search (jtext : JVal → String) (ftsRanked : String → List DocT)
    (s : Store3) (flt : SearchFilters) (limit : Nat) : List DocT :=
  let conds := searchConds jtext flt
  match flt.query with
  | some q => ((ftsRanked q).filter (matchesAll conds)).take limit
  | none =>
    (List.insertionSort (updDesc jtext)
      ((s.issues.map Prod.snd).filter (matchesAll conds))).take limit

/-- The ordering the spec claims for every non-full-text query, stated for
the legacy `resource` command: same filter, but ordered by the document's
last-modified timestamp (`updated_at`) descending.  Used only to compare
`searchResource` against the specified ordering. -/
def specResourceOrder (s : CJStore) (resource : String) (limit : Nat) : List CJIssueRow :=
  (List.insertionSort (descStr CJIssueRow.updated_at)
    (s.issues.filter (fun r => likeCI r.related_artifact resource))).take limit

/-- The empty `jira/download.ts` database as `createDatabase` makes it
(the `AUTOINCREMENT` sequence starts at 0 in the model). -/
def emptyCJStore : CJStore :=
  { issues := [], nextCid := 0, comments := [] }

/-- The `startAt` the Jira `main` begins with: the durable resume point
when `--resume` is given and the database file exists, else 0. -/
def jiraResumeStart (s : CJStore) (resume : Bool) (dbExists : Bool) : Nat :=
  if resume && dbExists then getResumePointCJ s else 0

/-- A fetched batch whose keys are distinct and not yet in the store (the
remote API pages a key-sorted corpus by offset, so an uninterrupted crawl
satisfies this). -/
def BatchFreshCJ (s : CJStore) (b : List RawIssue) : Prop :=
  (b.map (fun i => i.key)).Nodup ∧ ∀ i ∈ b, lookupIssueCJ s i.key = none

/-- Every batch in the trace is fresh for the store state at which the
download loop would commit it. -/
def FreshRunCJ : CJStore → List JFetchOutcome → Prop
  | _, [] => True
  | s, .batch b :: rest => BatchFreshCJ s b ∧ FreshRunCJ (insertBatchCJ s b) rest
  | s, .transientFail :: rest => FreshRunCJ s rest
  | s, .authFail :: rest => FreshRunCJ s rest

/-- The web-public invariant of the Zulip database: every stream row is
web-public, and every message row references some stream row. -/
def zInv (db : ZStore) : Prop :=
  (∀ st ∈ db.streams, st.is_web_public = true) ∧
  (∀ m ∈ db.messages, ∃ st ∈ db.streams, st.id = m.stream_id)

/-- The Zulip `narrow` guarantee: a batch fetched for stream `sid` only
contains messages of stream `sid`. -/
def NarrowOk (traces : Nat → List ZFetchOutcome) : Prop :=
  ∀ sid, ∀ o ∈ traces sid, ∀ msgs fn, o = ZFetchOutcome.batch msgs fn →
    ∀ m ∈ msgs, m.stream_id = sid

/-- The part_003 index-consistency invariant: issue keys are unique and
every stored document has exactly one FTS entry, equal to the projection
re-derived from the document. -/
def inv3 (s : Store3) : Prop :=
  (s.issues.map Prod.fst).Nodup ∧
  ∀ p ∈ s.issues, s.fts.filter (fun r => r.key == p.1) = [projFts3 p.2]

section UpsertLemmas

variable {α κ : Type} [DecidableEq κ] (key : α → κ)

theorem upsertBy_idem (l : List α) (r : α) :
    upsertBy key (upsertBy key l r) r = upsertBy key l r := by
  induction l with
  | nil => simp [upsertBy]
  | cons x t ih =>
    by_cases h : key x = key r
    · simp [upsertBy, h]
    · simp [upsertBy, h, ih]

theorem map_key_upsertBy (l : List α) (r : α) :
    (upsertBy key l r).map key =
      if key r ∈ l.map key then l.map key else l.map key ++ [key r] := by
  induction l with
  | nil => simp [upsertBy]
  | cons x t ih =>
    by_cases h : key x = key r
    · simp [upsertBy, h]
    · by_cases h2 : key r ∈ t.map key <;>
        simp [upsertBy, h, h2, ih, Ne.symm h]

theorem nodup_map_key_upsertBy {l : List α} (r : α)
    (h : (l.map key).Nodup) : ((upsertBy key l r).map key).Nodup := by
  rw [map_key_upsertBy]
  by_cases h2 : key r ∈ l.map key
  · simpa [h2]
  · simpa [h2, List.nodup_append] using h

theorem mem_upsertBy_sub {l : List α} {r x : α}
    (h : x ∈ upsertBy key l r) : x = r ∨ x ∈ l := by
  induction l with
  | nil => simpa [upsertBy] using h
  | cons y t ih =>
    by_cases hk : key y = key r
    · simp only [upsertBy, hk, if_pos rfl] at h
      rcases List.mem_cons.1 h with h | h
      · exact Or.inl h
      · exact Or.inr (List.mem_cons_of_mem _ h)
    · simp only [upsertBy, hk, if_neg hk] at h
      rcases List.mem_cons.1 h with h | h
      · exact Or.inr (h ▸ List.mem_cons_self _ _)
      · rcases ih h with h | h
        · exact Or.inl h
        · exact Or.inr (List.mem_cons_of_mem _ h)

theorem self_mem_upsertBy (l : List α) (r : α) : r ∈ upsertBy key l r := by
  induction l with
  | nil => simp [upsertBy]
  | cons x t ih =>
    by_cases hk : key x = key r <;> simp [upsertBy, hk, ih]

theorem mem_upsertBy_iff {l : List α} {r p : α}
    (h : (l.map key).Nodup) :
    p ∈ upsertBy key l r ↔ p = r ∨ (p ∈ l ∧ key p ≠ key r) := by
  induction l with
  | nil => simp [upsertBy]
  | cons x t ih =>
    simp only [List.map_cons, List.nodup_cons] at h
    by_cases hk : key x = key r
    · simp only [upsertBy, if_pos hk, List.mem_cons]
      constructor
      · rintro (h1 | h1)
        · exact Or.inl h1
        · refine Or.inr ⟨Or.inr h1, fun hkey => ?_⟩
          exact h.1 (hk ▸ hkey ▸ List.mem_map_of_mem key h1)
      · rintro (h1 | ⟨h1 | h1, h2⟩)
        · exact Or.inl h1
        · exact absurd (h1 ▸ hk) h2
        · exact Or.inr h1
    · simp only [upsertBy, if_neg hk, List.mem_cons, ih h.2]
      constructor
      · rintro (h1 | h1 | ⟨h1, h2⟩)
        · exact Or.inr ⟨Or.inl h1, fun hc => hk (h1 ▸ hc)⟩
        · exact Or.inl h1
        · exact Or.inr ⟨Or.inr h1, h2⟩
      · rintro (h1 | ⟨h1 | h1, h2⟩)
        · exact Or.inr (Or.inl h1)
        · exact Or.inl h1
        · exact Or.inr (Or.inr ⟨h1, h2⟩)

theorem upsertBy_of_fresh {l : List α} {r : α}
    (h : ∀ x ∈ l, key x ≠ key r) : upsertBy key l r = l ++ [r] := by
  induction l with
  | nil => simp [upsertBy]
  | cons x t ih =>
    have hx := h x (List.mem_cons_self _ _)
    simp only [upsertBy, if_neg hx, List.cons_append]
    rw [ih (fun y hy => h y (List.mem_cons_of_mem _ hy))]

theorem find?_upsertBy_none {l : List α} {r : α} {q : κ} :
    (upsertBy key l r).find? (fun x => key x == q) = none ↔
      key r ≠ q ∧ l.find? (fun x => key x == q) = none := by
  induction l with
  | nil =>
    by_cases hq : key r = q
    · rw [show upsertBy key ([] : List α) r = [r] from rfl,
          List.find?_cons_of_pos _ (by simp [hq])]
      simp [hq]
    · rw [show upsertBy key ([] : List α) r = [r] from rfl,
          List.find?_cons_of_neg _ (by simp [hq])]
      simp [hq, List.find?]
  | cons x t ih =>
    by_cases hk : key x = key r
    · rw [show upsertBy key (x :: t) r = r :: t from by simp [upsertBy, hk]]
      by_cases hq : key r = q
      · rw [List.find?_cons_of_pos _ (by simp [hq]),
            List.find?_cons_of_pos (l := t) (by simp [hk, hq])]
        simp [hq]
      · rw [List.find?_cons_of_neg _ (by simp [hq]),
            List.find?_cons_of_neg (l := t) (by simp [hk, hq])]
        simp [hq]
    · rw [show upsertBy key (x :: t) r = x :: upsertBy key t r from by
            simp [upsertBy, hk]]
      by_cases hxq : key x = q
      · rw [List.find?_cons_of_pos _ (by simp [hxq]),
            List.find?_cons_of_pos (l := t) (by simp [hxq])]
        simp
      · rw [List.find?_cons_of_neg _ (by simp [hxq]),
            List.find?_cons_of_neg (l := t) (by simp [hxq])]
        exact ih

theorem upsertBy_self_of_all_eq {l : List α} {r : α}
    (hmem : key r ∈ l.map key) (hall : ∀ x ∈ l, key x = key r → x = r) :
    upsertBy key l r = l := by
  induction l with
  | nil => simp at hmem
  | cons x t ih =>
    by_cases hk : key x = key r
    · have hx : x = r := hall x (List.mem_cons_self _ _) hk
      simp [upsertBy, hk, hx]
    · simp only [List.map_cons, List.mem_cons] at hmem
      rcases hmem with hmem | hmem
      · exact absurd hmem.symm hk
      · simp only [upsertBy, if_neg hk]
        rw [ih hmem (fun y hy => hall y (List.mem_cons_of_mem _ hy))]

end UpsertLemmas

theorem lookupD_setK_self (d : DocT) (k : String) (v : JVal) :
    lookupD (setK d k v) k = some v := by
  induction d with
  | nil => simp [setK, lookupD]
  | cons p t ih =>
    by_cases h : p.1 = k
    · simp [setK, h, lookupD, List.find?_cons]
    · have : (p.1 == k) = false := by simp [h]
      simp [setK, h, lookupD, List.find?_cons, this] at ih ⊢
      exact ih

theorem lookupD_setK_ne (d : DocT) {k q : String} (v : JVal) (h : k ≠ q) :
    lookupD (setK d k v) q = lookupD d q := by
  induction d with
  | nil =>
    have : (k == q) = false := by simp [h]
    simp [setK, lookupD, List.find?, this]
  | cons p t ih =>
    by_cases hp : p.1 = k
    · have h1 : (k == q) = false := by simp [h]
      have h2 : (p.1 == q) = false := by simp [hp, h]
      simp [setK, hp, lookupD, List.find?_cons, h1, h2]
    · by_cases hq : p.1 = q
      · have : (p.1 == q) = true := by simp [hq]
        simp [setK, hp, lookupD, List.find?_cons, this]
      · have : (p.1 == q) = false := by simp [hq]
        simp [setK, hp, lookupD, List.find?_cons, this] at ih ⊢
        exact ih

theorem mem_map_fst_setK {d : DocT} {k q : String} {v : JVal}
    (h : q ∈ (setK d k v).map Prod.fst) : q = k ∨ q ∈ d.map Prod.fst := by
  induction d with
  | nil => simpa [setK] using h
  | cons p t ih =>
    by_cases hp : p.1 = k
    · simp only [setK, if_pos hp, List.map_cons, List.mem_cons] at h
      rcases h with h | h
      · exact Or.inl h
      · exact Or.inr (by simp [h])
    · simp only [setK, if_neg hp, List.map_cons, List.mem_cons] at h
      rcases h with h | h
      · exact Or.inr (by simp [h])
      · rcases ih h with h | h
        · exact Or.inl h
        · exact Or.inr (by simp [h])

theorem filter_filter_self {α : Type} (p : α → Bool) (l : List α) :
    (l.filter p).filter p = l.filter p := by
  induction l with
  | nil => rfl
  | cons x t ih =>
    by_cases h : p x <;> simp [List.filter_cons, h, ih]

section FoldUpsertLemmas

variable {α κ : Type} [DecidableEq κ] (key : α → κ)

theorem all_eqkey_upsertBy {l : List α} {r m : α} (hne : key m ≠ key r)
    (h : ∀ x ∈ l, key x = key r → x = r) :
    ∀ x ∈ upsertBy key l m, key x = key r → x = r := by
  intro x hx hkey
  rcases mem_upsertBy_sub key hx with h1 | h1
  · exact absurd (h1 ▸ hkey) hne
  · exact h x h1 hkey

theorem all_eqkey_foldl {S l : List α} {r : α}
    (hS : ∀ m ∈ S, key m ≠ key r) (h : ∀ x ∈ l, key x = key r → x = r) :
    ∀ x ∈ S.foldl (upsertBy key) l, key x = key r → x = r := by
  induction S generalizing l with
  | nil => exact h
  | cons m T ih =>
    exact ih (fun y hy => hS y (List.mem_cons_of_mem _ hy))
      (all_eqkey_upsertBy key (hS m (List.mem_cons_self _ _)) h)

theorem keyr_mem_upsertBy (l : List α) (r : α) :
    key r ∈ (upsertBy key l r).map key := by
  rw [map_key_upsertBy]
  split
  · assumption
  · simp

theorem mem_map_key_upsertBy_of_mem {l : List α} {q : κ} (r : α)
    (h : q ∈ l.map key) : q ∈ (upsertBy key l r).map key := by
  rw [map_key_upsertBy]
  split <;> simp [h]

theorem mem_map_key_foldl {S l : List α} {q : κ}
    (h : q ∈ l.map key) : q ∈ (S.foldl (upsertBy key) l).map key := by
  induction S generalizing l with
  | nil => exact h
  | cons m T ih => exact ih (mem_map_key_upsertBy_of_mem key m h)

theorem nodup_map_key_foldl {S l : List α}
    (h : (l.map key).Nodup) : ((S.foldl (upsertBy key) l).map key).Nodup := by
  induction S generalizing l with
  | nil => exact h
  | cons m T ih => exact ih (nodup_map_key_upsertBy key m h)

theorem all_eqkey_after_upsert {l : List α} {r : α}
    (h : (l.map key).Nodup) :
    ∀ x ∈ upsertBy key l r, key x = key r → x = r := by
  intro x hx hkey
  rcases (mem_upsertBy_iff key h).1 hx with h1 | ⟨_, h2⟩
  · exact h1
  · exact absurd hkey h2

theorem foldl_upsertBy_idem (S : List α) :
    ∀ l : List α, (S.map key).Nodup → (l.map key).Nodup →
      S.foldl (upsertBy key) (S.foldl (upsertBy key) l) = S.foldl (upsertBy key) l := by
  induction S with
  | nil => intro l _ _; rfl
  | cons r T ih =>
    intro l hS hl
    simp only [List.map_cons, List.nodup_cons] at hS
    simp only [List.foldl_cons]
    have hTr : ∀ m ∈ T, key m ≠ key r := by
      intro m hm hc
      exact hS.1 (hc ▸ List.mem_map_of_mem key hm)
    have hP : ∀ x ∈ T.foldl (upsertBy key) (upsertBy key l r), key x = key r → x = r :=
      all_eqkey_foldl key hTr (all_eqkey_after_upsert key hl)
    have hmem : key r ∈ (T.foldl (upsertBy key) (upsertBy key l r)).map key :=
      mem_map_key_foldl key (keyr_mem_upsertBy key l r)
    rw [upsertBy_self_of_all_eq key hmem hP]
    exact ih (upsertBy key l r) hS.2 (nodup_map_key_upsertBy key r hl)

end FoldUpsertLemmas

theorem jiraRun_transient (total : Nat) (s : CJStore) (pos : Nat)
    (tr : List JFetchOutcome) :
    jiraRun total s pos (JFetchOutcome.transientFail :: tr) =
      jiraRun total s pos tr := by
  by_cases h : pos < total
  · simp only [jiraRun, if_pos h]
  · cases tr with
    | nil => simp only [jiraRun, if_neg h]
    | cons o rest => cases o <;> simp only [jiraRun, if_neg h]

/-- Concrete renderers for counterexamples and witnesses. -/
def rd0 : ZRender :=
  { iso := fun _ => "", rjson := fun _ => "" }

/-- A concrete Zulip message used by counterexamples. -/
def zmsgA : ZulipMessage :=
  { id := 1001, sender_id := 7, sender_full_name := "Ann",
    sender_email := "ann@example.org", content := "hello", subject := "topic-a",
    timestamp := 111, stream_id := 5, display_recipient := "stream-five",
    reactions := [] }

/-- C4.  The claim asserts that in BOTH corpora a transient fetch/commit
failure leaves the batch rolled back, the position unadvanced, and
fetching retried indefinitely, never ending ingestion for a partition.
This is false for the chat corpus: the single `catch` in
`downloadWithApi` rolls back and then `break`s out of the stream loop, so
a transient failure ends that stream's ingestion; the later batch of the
trace is never fetched. -/
theorem transient_failure_zulip_counterexample :
    zulipStreamLoop rd0 emptyZStore
        [ZFetchOutcome.failure, ZFetchOutcome.batch [zmsgA] true] = emptyZStore ∧
      zulipStreamLoop rd0 emptyZStore [ZFetchOutcome.batch [zmsgA] true] ≠ emptyZStore := by
  constructor
  · rfl
  · decide

/-- C4 (amended).  Transient-failure handling, per corpus: in the Jira
downloader any number of consecutive transient failures leaves the store
and the fetch position unchanged and the loop goes on from the same
position (retry with backoff, not surfaced); in the Zulip downloader any
fetch/commit error rolls back the in-flight batch, leaves the store
unchanged, and ends that stream's download (the run then proceeds with the
next stream). -/
theorem transient_failure_handling :
    (∀ (total : Nat) (s : CJStore) (pos n : Nat) (rest : List JFetchOutcome),
      jiraRun total s pos (List.replicate n JFetchOutcome.transientFail ++ rest) =
        jiraRun total s pos rest) ∧
    (∀ (rd : ZRender) (db : ZStore) (rest : List ZFetchOutcome),
      zulipStreamLoop rd db (ZFetchOutcome.failure :: rest) = db) := by
  constructor
  · intro total s pos n rest
    induction n with
    | zero => rfl
    | succ m ih =>
      rw [List.replicate_succ, List.cons_append, jiraRun_transient]
      exact ih
  · intro rd db rest
    rfl

/-- A concrete raw issue carrying one comment, used by counterexamples. -/
def exIssueA : RawIssue :=
  { key := "FHIR-2",
    fields := .obj [("comment", .obj [("comments",
      .arr [.obj [("body", .str "hi there")]])])] }

/-- C6.  The claim asserts `upsert(D); upsert(D)` leaves Primary Store
content, including dependent comment rows, identical to a single
`upsert(D)`.  This is false for `insertIssue` of `jira/download.ts`: the
second upsert deletes the issue's comment rows and re-inserts them with
fresh `AUTOINCREMENT` ids, so the comments table content (and the id
sequence) differ. -/
theorem upsert_idempotency_counterexample :
    insertIssueCJ (insertIssueCJ emptyCJStore exIssueA) exIssueA ≠
      insertIssueCJ emptyCJStore exIssueA := by
  decide

/-- C6 (amended).  `upsert` is idempotent up to auto-generated comment row
ids: part_003's `insertIssue` is fully idempotent on document and FTS
content; `insertMessages` of `zulip/download.ts` is fully idempotent for a
batch of distinct message ids against a table with distinct ids; and
`insertIssue` of `jira/download.ts` is idempotent on the issues table and
on comment rows up to their `AUTOINCREMENT` id column. -/
theorem upsert_idempotency_amended :
    (∀ (s : Store3) (i : RawIssue),
      insertIssue3 (insertIssue3 s i) i = insertIssue3 s i) ∧
    (∀ (rd : ZRender) (db : ZStore) (msgs : List ZulipMessage),
      (msgs.map (fun m => m.id)).Nodup →
      (db.messages.map (fun m => m.id)).Nodup →
      insertMessages rd (insertMessages rd db msgs) msgs =
        insertMessages rd db msgs) ∧
    (∀ (s : CJStore) (i : RawIssue),
      (insertIssueCJ (insertIssueCJ s i) i).issues = (insertIssueCJ s i).issues ∧
      (insertIssueCJ (insertIssueCJ s i) i).comments.map commentContent =
        (insertIssueCJ s i).comments.map commentContent) := by
  refine ⟨?_, ?_, ?_⟩
  · intro s i
    simp only [insertIssue3, Store3.mk.injEq]
    refine ⟨upsertBy_idem _ _ _, ?_⟩
    rw [List.filter_append, filter_filter_self]
    simp [projFts3]
  · intro rd db msgs hmsgs hdb
    have hrows : ((msgs.map (mkMsgRow rd)).map ZMsgRow.id).Nodup := by
      rw [List.map_map]
      have : msgs.map (ZMsgRow.id ∘ mkMsgRow rd) = msgs.map (fun m => m.id) :=
        List.map_congr_left (fun m _ => rfl)
      rw [this]
      exact hmsgs
    simp only [insertMessages]
    congr 1
    have hfold : ∀ t : List ZMsgRow,
        msgs.foldl (fun u m => upsertMsgRow u (mkMsgRow rd m)) t =
          (msgs.map (mkMsgRow rd)).foldl (upsertBy ZMsgRow.id) t := by
      intro t
      rw [List.foldl_map]
      rfl
    rw [hfold, hfold, foldl_upsertBy_idem ZMsgRow.id _ _ hrows hdb]
  · intro s i
    constructor
    · simp only [insertIssueCJ, upsertRowCJ]
      exact upsertBy_idem _ _ _
    · simp only [insertIssueCJ]
      rw [List.filter_append, filter_filter_self]
      have hnew : ∀ n : Nat,
          ((rawComments i).enum.map (fun p => mkCommentRow (n + p.1) i.key p.2)).filter
            (fun c => c.issue_key != i.key) = [] := by
        intro n
        rw [List.filter_eq_nil_iff]
        intro c hc
        rcases List.mem_map.1 hc with ⟨p, _, hp⟩
        rw [← hp]
        simp [mkCommentRow]
      rw [hnew, List.append_nil, List.map_append, List.map_append]
      congr 1
      rw [List.map_map, List.map_map]
      exact List.map_congr_left (fun p _ => rfl)

theorem sorted_take_insertionSort {α : Type} (r : α → α → Prop) [DecidableRel r]
    [IsTotal α r] [IsTrans α r] (l : List α) (n : Nat) :
    List.Sorted r ((List.insertionSort r l).take n) :=
  List.Pairwise.sublist (List.take_sublist n _) (List.sorted_insertionSort r l)

/-- A column-store issue row with only the fields the query counterexamples
need; every other column is empty. -/
def mkTestRow (key created updated resolved artifact impact status : String) : CJIssueRow :=
  { key := key, summary := "", description := "", status := status,
    resolution := "", priority := "", issue_type := "", reporter_name := "",
    reporter_username := "", assignee_name := "", assignee_username := "",
    created_at := created, updated_at := updated, resolved_at := resolved,
    specification := "", raised_in_version := "", related_artifact := artifact,
    work_group := "", applied_for_version := "", resolution_description := "",
    resolution_vote := "", change_category := "", change_impact := impact,
    vote_date := "", related_url := "", related_pages := "",
    related_sections := "", labels := "", components := "", comment_count := 0 }

/-- Created early, modified late. -/
def rowA : CJIssueRow := mkTestRow "FHIR-10" "2024-01-01" "2024-12-01" "" "Patient" "" ""

/-- Created late, modified early. -/
def rowB : CJIssueRow := mkTestRow "FHIR-11" "2024-06-01" "2024-02-01" "" "Patient" "" ""

/-- A two-row column store on which creation order and modification order
disagree. -/
def ctStoreC7 : CJStore := { issues := [rowA, rowB], nextCid := 0, comments := [] }

/-- C7.  The claim asserts every query without a full-text expression
returns documents ordered by last-modified timestamp descending.  The
legacy `resource` command of `jira/search.ts` orders by `created_at`
descending instead: on a store where the two orders disagree it returns
the rows in creation order, not in the claimed last-modified order, and
its output is not sorted by `updated_at` descending. -/
theorem query_ordering_counterexample :
    searchResource ctStoreC7 "Patient" 10 = [rowB, rowA] ∧
    specResourceOrder ctStoreC7 "Patient" 10 = [rowA, rowB] ∧
    ¬ List.Sorted (descStr CJIssueRow.updated_at) (searchResource ctStoreC7 "Patient" 10) := by
  refine ⟨by decide, by decide, ?_⟩
  intro h
  have := List.rel_of_sorted_cons h rowA (by decide)
  revert this
  decide

/-- C7 (amended).  Ordering of non-full-text queries, per code path: the
unified `search` of the second `jira/search.ts` orders by the document's
`updated_at` descending, truncated to the limit, returning only rows that
match every structured filter; the legacy commands order by `created_at`
descending (`resource`), `resolved_at` descending (`breaking`), and
`updated_at` descending (`status`). -/
theorem query_ordering_amended :
    (∀ (jtext : JVal → String) (ftsR : String → List DocT) (s : Store3)
        (flt : SearchFilters) (limit : Nat), flt.query = none →
      List.Sorted (updDesc jtext) (search jtext ftsR s flt limit) ∧
      (search jtext ftsR s flt limit).length ≤ limit ∧
      ∀ d ∈ search jtext ftsR s flt limit,
        matchesAll (searchConds jtext flt) d = true) ∧
    (∀ (s : CJStore) (resource : String) (limit : Nat),
      List.Sorted (descStr CJIssueRow.created_at) (searchResource s resource limit) ∧
      (searchResource s resource limit).length ≤ limit) ∧
    (∀ (s : CJStore) (version : Option String) (limit : Nat),
      List.Sorted (descStr CJIssueRow.resolved_at) (searchBreaking s version limit)) ∧
    (∀ (s : CJStore) (status : String) (limit : Nat),
      List.Sorted (descStr CJIssueRow.updated_at) (searchStatus s status limit)) := by
  refine ⟨?_, ?_, ?_, ?_⟩
  · intro jtext ftsR s flt limit hq
    simp only [search, hq]
    refine ⟨sorted_take_insertionSort _ _ _, List.length_take_le _ _, ?_⟩
    intro d hd
    have h1 := List.mem_of_mem_take hd
    rw [List.mem_insertionSort] at h1
    exact (List.mem_filter.1 h1).2
  · intro s resource limit
    exact ⟨sorted_take_insertionSort _ _ _, List.length_take_le _ _⟩
  · intro s version limit
    cases version with
    | none => exact sorted_take_insertionSort _ _ _
    | some v => exact sorted_take_insertionSort _ _ _
  · intro s status limit
    exact sorted_take_insertionSort _ _ _

theorem lookupIssueCJ_insert_none {s : CJStore} {i : RawIssue} {k : String}
    (hne : i.key ≠ k) (h : lookupIssueCJ s k = none) :
    lookupIssueCJ (insertIssueCJ s i) k = none := by
  simp only [lookupIssueCJ, insertIssueCJ, upsertRowCJ] at h ⊢
  rw [find?_upsertBy_none]
  exact ⟨hne, h⟩

theorem insertIssueCJ_issues_of_fresh {s : CJStore} {i : RawIssue}
    (h : lookupIssueCJ s i.key = none) :
    (insertIssueCJ s i).issues = s.issues ++ [mkIssueRowCJ i] := by
  simp only [insertIssueCJ, upsertRowCJ]
  apply upsertBy_of_fresh
  intro x hx hc
  simp only [lookupIssueCJ, List.find?_eq_none] at h
  have hk : (mkIssueRowCJ i).key = i.key := rfl
  exact h x hx (by simp [hc, hk])

theorem length_insertBatchCJ {b : List RawIssue} :
    ∀ {s : CJStore}, BatchFreshCJ s b →
      (insertBatchCJ s b).issues.length = s.issues.length + b.length := by
  induction b with
  | nil => intro s _; simp [insertBatchCJ]
  | cons i t ih =>
    intro s h
    obtain ⟨hnd, hfresh⟩ := h
    simp only [List.map_cons, List.nodup_cons] at hnd
    have hrest : BatchFreshCJ (insertIssueCJ s i) t := by
      refine ⟨hnd.2, fun j hj => ?_⟩
      refine lookupIssueCJ_insert_none (fun hc => hnd.1 ?_) (hfresh j (List.mem_cons_of_mem _ hj))
      exact hc ▸ List.mem_map_of_mem _ hj
    have hstep := insertIssueCJ_issues_of_fresh (hfresh i (List.mem_cons_self _ _))
    simp only [insertBatchCJ, List.foldl_cons] at ih ⊢
    rw [ih hrest, hstep]
    simp [List.length_append]
    omega

theorem le_foldr_max (l : List Nat) : ∀ i ∈ l, i ≤ l.foldr max 0 := by
  induction l with
  | nil => intro i h; cases h
  | cons x t ih =>
    intro i hi
    rcases List.mem_cons.1 hi with h | h
    · subst h; exact le_max_left _ _
    · exact le_trans (ih i h) (le_max_right _ _)

theorem foldr_max_mem (l : List Nat) : l.foldr max 0 = 0 ∨ l.foldr max 0 ∈ l := by
  induction l with
  | nil => exact Or.inl rfl
  | cons x t ih =>
    simp only [List.foldr_cons]
    rcases max_choice x (t.foldr max 0) with h | h
    · rw [h]; exact Or.inr (List.mem_cons_self _ _)
    · rw [h]
      rcases ih with h2 | h2
      · exact Or.inl h2
      · exact Or.inr (List.mem_cons_of_mem _ h2)

/-- C3.  The resume position is derived solely from the durable store:
for the issue corpus it is `COUNT(*)` of the issues table, and committing
a fresh batch advances it by exactly the batch size, so it is a valid
next offset; for the chat corpus it is the maximal message id within the
stream partition, or the `"oldest"` sentinel when the partition has no
rows. -/
theorem resume_position_correct :
    (∀ s : CJStore, getResumePointCJ s = s.issues.length) ∧
    (∀ (s : CJStore) (b : List RawIssue), BatchFreshCJ s b →
      getResumePointCJ (insertBatchCJ s b) = getResumePointCJ s + b.length) ∧
    (∀ (db : ZStore) (sid : Nat), (∀ m ∈ db.messages, 0 < m.id) →
      ((db.messages.filter (fun r => r.stream_id == sid)) = [] →
        zulipResumeAnchor db true sid = ZAnchor.oldest) ∧
      ((db.messages.filter (fun r => r.stream_id == sid)) ≠ [] →
        ∃ mx, zulipResumeAnchor db true sid = ZAnchor.atId mx ∧
          mx ∈ (db.messages.filter (fun r => r.stream_id == sid)).map (fun r => r.id) ∧
          ∀ i ∈ (db.messages.filter (fun r => r.stream_id == sid)).map (fun r => r.id),
            i ≤ mx)) := by
  refine ⟨fun _ => rfl, fun s b h => length_insertBatchCJ h, ?_⟩
  intro db sid hpos
  constructor
  · intro hempty
    simp [zulipResumeAnchor, getLastMessageId, hempty]
  · intro hne
    set L := db.messages.filter (fun r => r.stream_id == sid) with hL
    set mx := (L.map (fun r => r.id)).foldr max 0 with hmx
    obtain ⟨a, ha⟩ := List.exists_mem_of_ne_nil L hne
    have hapos : 0 < a.id := hpos a (List.mem_of_mem_filter ha)
    have hames : a.id ∈ L.map (fun r => r.id) := List.mem_map_of_mem _ ha
    have hbound := le_foldr_max (L.map (fun r => r.id))
    have hmxpos : 0 < mx := lt_of_lt_of_le hapos (hbound _ hames)
    have hmem : mx ∈ L.map (fun r => r.id) := by
      rcases foldr_max_mem (L.map (fun r => r.id)) with h | h
      · omega
      · exact h
    refine ⟨mx, ?_, hmem, hbound⟩
    have : (mx == 0) = false := by simp; omega
    simp [zulipResumeAnchor, getLastMessageId, ← hL, ← hmx, this]

/-- Two comment rows out of chronological order in the stored table. -/
def cmtA : CommentRow :=
  { id := 1, issue_key := "FHIR-10", author_name := "Ann",
    author_username := "ann", body := "first comment", created_at := "2024-01-05" }

/-- The later comment, stored before the earlier one. -/
def cmtB : CommentRow :=
  { id := 0, issue_key := "FHIR-10", author_name := "Bob",
    author_username := "bob", body := "second comment", created_at := "2024-02-06" }

/-- A store holding one issue and its two comments, stored out of order. -/
def snapStore : CJStore :=
  { issues := [rowA], nextCid := 2, comments := [cmtB, cmtA] }

/-- C9.  `snapshot(key)` (the snapshot path of `getIssue` in
`jira/search.ts`): a missing key reports not-found; a present key returns
the stored issue row together with exactly the comment rows belonging to
it — no more, no fewer, bodies as stored — ordered by `created_at`
ascending, with no limit applied. -/
theorem snapshot_complete (s : CJStore) (k : String) :
    (lookupIssueCJ s k = none → getIssueSnapshot s k = none) ∧
    (∀ row comments, getIssueSnapshot s k = some (row, comments) →
      lookupIssueCJ s k = some row ∧
      (∀ c, c ∈ comments ↔ c ∈ s.comments ∧ c.issue_key = k) ∧
      comments.length = (s.comments.filter (fun c => c.issue_key == k)).length ∧
      List.Sorted (ascStr CommentRow.created_at) comments) := by
  constructor
  · intro h
    simp [getIssueSnapshot, h]
  · intro row comments h
    cases heq : lookupIssueCJ s k with
    | none => rw [getIssueSnapshot, heq] at h; cases h
    | some r =>
      rw [getIssueSnapshot, heq] at h
      have h2 : r = row ∧
          List.insertionSort (ascStr CommentRow.created_at)
            (s.comments.filter (fun c => c.issue_key == k)) = comments := by
        simpa using h
      obtain ⟨rfl, hsort⟩ := h2
      refine ⟨rfl, ?_, ?_, ?_⟩
      · intro c
        rw [← hsort, List.mem_insertionSort, List.mem_filter]
        simp [beq_iff_eq]
      · rw [← hsort, List.length_insertionSort]
      · rw [← hsort]
        exact List.sorted_insertionSort _ _

/-- Witness for C9 at a concrete store: the snapshot of `FHIR-10` returns
its row and both comments, reordered chronologically. -/
theorem snapshot_complete_witness :
    lookupIssueCJ snapStore "FHIR-10" = some rowA ∧
    (∀ c, c ∈ [cmtA, cmtB] ↔ c ∈ snapStore.comments ∧ c.issue_key = "FHIR-10") ∧
    ([cmtA, cmtB] : List CommentRow).length =
      (snapStore.comments.filter (fun c => c.issue_key == "FHIR-10")).length ∧
    List.Sorted (ascStr CommentRow.created_at) [cmtA, cmtB] :=
  (snapshot_complete snapStore "FHIR-10").2 rowA [cmtA, cmtB] (by decide)

/-- A Zulip store holding one committed message of stream 5, used by
witnesses. -/
def zStoreW : ZStore :=
  { streams := [], messages := [mkMsgRow rd0 zmsgA], fts := [] }

/-- Witness for C3 at concrete inputs: committing one fresh issue moves
the resume point from 0 to 1; stream 5 with one stored message resumes at
its id 1001; an empty stream partition resumes from the oldest sentinel. -/
theorem resume_position_correct_witness :
    getResumePointCJ (insertBatchCJ emptyCJStore [exIssueA]) =
      getResumePointCJ emptyCJStore + 1 ∧
    (∃ mx, zulipResumeAnchor zStoreW true 5 = ZAnchor.atId mx ∧
      mx ∈ (zStoreW.messages.filter (fun r => r.stream_id == 5)).map (fun r => r.id) ∧
      ∀ i ∈ (zStoreW.messages.filter (fun r => r.stream_id == 5)).map (fun r => r.id),
        i ≤ mx) ∧
    zulipResumeAnchor zStoreW true 99 = ZAnchor.oldest := by
  refine ⟨?_, ?_, ?_⟩
  · exact resume_position_correct.2.1 emptyCJStore [exIssueA] ⟨by decide, by decide⟩
  · exact (resume_position_correct.2.2 zStoreW 5 (by decide)).2 (by decide)
  · exact (resume_position_correct.2.2 zStoreW 99 (by decide)).1 (by decide)

theorem jiraRun_pos_eq_count (total : Nat) :
    ∀ (tr : List JFetchOutcome) (s : CJStore) (pos : Nat),
      pos = s.issues.length → FreshRunCJ s tr →
      (jiraRun total s pos tr).1.2 = (jiraRun total s pos tr).1.1.issues.length := by
  intro tr
  induction tr with
  | nil =>
    intro s pos h _
    subst h
    simp only [jiraRun]
    split <;> rfl
  | cons o rest ih =>
    intro s pos h hf
    subst h
    by_cases ht : s.issues.length < total
    · cases o with
      | batch b =>
        simp only [jiraRun, if_pos ht]
        exact ih _ _ (length_insertBatchCJ hf.1).symm hf.2
      | transientFail =>
        rw [jiraRun_transient]
        exact ih _ _ rfl hf
      | authFail =>
        simp only [jiraRun]
        split <;> rfl
    · cases o <;> simp only [jiraRun, if_neg ht]

theorem jiraRun_aborted_pos (total : Nat) :
    ∀ (tr : List JFetchOutcome) (s : CJStore) (pos p : Nat),
      (jiraRun total s pos tr).2 = JExit.aborted p →
      (jiraRun total s pos tr).1.2 = p := by
  intro tr
  induction tr with
  | nil =>
    intro s pos p h
    by_cases ht : pos < total <;> simp [jiraRun, ht] at h
  | cons o rest ih =>
    intro s pos p h
    by_cases ht : pos < total
    · cases o with
      | batch b =>
        simp only [jiraRun, if_pos ht] at h ⊢
        exact ih _ _ _ h
      | transientFail =>
        rw [jiraRun_transient] at h ⊢
        exact ih _ _ _ h
      | authFail =>
        simp only [jiraRun, if_pos ht] at h ⊢
        cases h
        rfl
    · cases o <;> simp [jiraRun, ht] at h

/-- A second web-public stream and a message in it, for the run-level
counterexample. -/
def zstream1 : ZulipStream :=
  { stream_id := 1, name := "one", description := "", is_web_public := true,
    message_retention_days := none }

/-- The second stream of the counterexample run. -/
def zstream2 : ZulipStream :=
  { stream_id := 2, name := "two", description := "", is_web_public := true,
    message_retention_days := none }

/-- A message of stream 2. -/
def zmsgB : ZulipMessage :=
  { id := 2002, sender_id := 8, sender_full_name := "Bea",
    sender_email := "bea@example.org", content := "later", subject := "topic-b",
    timestamp := 222, stream_id := 2, display_recipient := "two",
    reactions := [] }

/-- Stream 1 fails with an auth-style error; stream 2 has one batch. -/
def tracesC5 : Nat → List ZFetchOutcome :=
  fun sid => if sid = 1 then [ZFetchOutcome.failure]
    else [ZFetchOutcome.batch [zmsgB] true]

/-- C5.  The claim asserts an authentication failure is terminal for the
whole run in both corpora, with no further batches or partitions fetched.
In `zulip/download.ts` a 401/403 is caught by the same `catch` as any
other error and only breaks the current stream loop: the run proceeds to
fetch and commit the next partition (stream 2's message is in the final
store), and the run ends normally rather than reporting an aborted resume
position. -/
theorem auth_failure_counterexample :
    (zulipRun rd0 [zstream1, zstream2] tracesC5 emptyZStore).messages =
      [mkMsgRow rd0 zmsgB] ∧
    mkMsgRow rd0 zmsgB ∈ (zulipRun rd0 [zstream1, zstream2] tracesC5 emptyZStore).messages := by
  constructor
  · decide
  · decide

/-- C5 (amended).  Authentication failure, per corpus: in the Jira
downloader a 401/403 stops the run at once — the store and position are
untouched, no later trace entry is consumed, and the exact position is
reported; moreover, whenever the loop starts from the durable resume
point and commits fresh batches, any reported aborted position equals the
resume point a future run would derive from the committed store.  In the
Zulip downloader an auth failure only ends the current stream: the batch
is rolled back and the committed store is preserved, and the run
continues with the remaining streams. -/
theorem auth_failure_terminal_amended :
    (∀ (total : Nat) (s : CJStore) (pos : Nat) (rest : List JFetchOutcome),
      pos < total →
      jiraRun total s pos (JFetchOutcome.authFail :: rest) =
        ((s, pos), JExit.aborted pos)) ∧
    (∀ (total : Nat) (tr : List JFetchOutcome) (s : CJStore) (pos p : Nat),
      pos = getResumePointCJ s → FreshRunCJ s tr →
      (jiraRun total s pos tr).2 = JExit.aborted p →
      p = getResumePointCJ (jiraRun total s pos tr).1.1) ∧
    (∀ (rd : ZRender) (db : ZStore) (rest : List ZFetchOutcome),
      zulipStreamLoop rd db (ZFetchOutcome.failure :: rest) = db) := by
  refine ⟨?_, ?_, ?_⟩
  · intro total s pos rest ht
    simp only [jiraRun, if_pos ht]
  · intro total tr s pos p hpos hf habort
    have h1 := jiraRun_aborted_pos total tr s pos p habort
    have h2 := jiraRun_pos_eq_count total tr s pos hpos hf
    rw [← h1, h2]
    rfl
  · intro rd db rest
    rfl

/-- Witness for C5 at concrete inputs: an immediate auth failure aborts at
position 0 with the empty store intact, and after one committed fresh
batch the aborted position 1 equals the resume point of the committed
store. -/
theorem auth_failure_terminal_witness :
    jiraRun 10 emptyCJStore 0 [JFetchOutcome.authFail] =
      ((emptyCJStore, 0), JExit.aborted 0) ∧
    (1 : Nat) = getResumePointCJ (jiraRun 10 emptyCJStore 0
      [JFetchOutcome.batch [exIssueA], JFetchOutcome.authFail]).1.1 := by
  constructor
  · exact auth_failure_terminal_amended.1 10 emptyCJStore 0 [] (by decide)
  · exact auth_failure_terminal_amended.2.1 10
      [JFetchOutcome.batch [exIssueA], JFetchOutcome.authFail] emptyCJStore 0 1
      rfl ⟨⟨by decide, by decide⟩, trivial⟩ (by decide)

/-- Witness for C6 (amended) at concrete inputs: re-inserting the same
message batch leaves the Zulip store unchanged. -/
theorem upsert_idempotency_amended_witness :
    insertMessages rd0 (insertMessages rd0 emptyZStore [zmsgA]) [zmsgA] =
      insertMessages rd0 emptyZStore [zmsgA] :=
  upsert_idempotency_amended.2.1 rd0 emptyZStore [zmsgA] (by decide) (by decide)

theorem matchesAll_mono {conds cs : List (DocT → Bool)}
    (hsub : ∀ c ∈ cs, c ∈ conds) {d : DocT}
    (h : matchesAll conds d = true) : matchesAll cs d = true := by
  simp only [matchesAll, List.all_eq_true] at h ⊢
  exact fun c hc => h c (hsub c hc)

/-- A trivial JSON renderer: the concrete stores only hold scalar
fields, so it is never consulted. -/
def jtext0 : JVal → String := fun _ => ""

/-- An empty FTS oracle. -/
def fts0 : String → List DocT := fun _ => []

/-- A document with status X, modified early. -/
def docX : DocT := [("status", .str "X"), ("updated_at", .str "2024-01-01")]

/-- A document with status Y, modified late. -/
def docY : DocT := [("status", .str "Y"), ("updated_at", .str "2024-06-01")]

/-- A two-document store for the filter counterexample. -/
def st8 : Store3 := { issues := [("k1", docX), ("k2", docY)], fts := [] }

/-- The filter set selecting status X. -/
def fltStatusX : SearchFilters :=
  { noFilters with status := some "X" }

/-- C8.  The claim asserts that removing one filter, holding the limit
fixed, returns a superset of the original result.  With the limit
truncating the relaxed result this fails: with limit 1, the status-X
query returns `docX`, but the unfiltered query returns only the more
recently modified `docY`, so `docX` is lost — not a superset. -/
theorem filter_superset_counterexample :
    search jtext0 fts0 st8 fltStatusX 1 = [docX] ∧
    search jtext0 fts0 st8 noFilters 1 = [docY] ∧
    docX ∉ search jtext0 fts0 st8 noFilters 1 := by
  refine ⟨rfl, rfl, ?_⟩
  intro h
  rw [show search jtext0 fts0 st8 noFilters 1 = [docY] from rfl] at h
  simp only [List.mem_singleton] at h
  have h2 := congrArg (fun d => lookupD d "status") h
  simp [docX, docY, lookupD, List.find?] at h2

/-- C8 (amended).  Structured filters do compose by logical AND: every
returned document satisfies every supplied condition, in both the
full-text branch and the filter-only branch.  Removing a filter returns a
superset of the original result whenever the relaxed query is not
truncated by the limit (its matching rows number at most `limit`); the
counterexample shows the unrestricted statement is false under
truncation. -/
theorem filter_conjunction_amended :
    (∀ (jtext : JVal → String) (ftsR : String → List DocT) (s : Store3)
        (flt : SearchFilters) (limit : Nat) (d : DocT),
      d ∈ search jtext ftsR s flt limit →
      matchesAll (searchConds jtext flt) d = true) ∧
    (∀ (jtext : JVal → String) (ftsR : String → List DocT) (s : Store3)
        (flt fl2 : SearchFilters) (limit : Nat),
      flt.query = none → fl2.query = none →
      (∀ c ∈ searchConds jtext fl2, c ∈ searchConds jtext flt) →
      ((s.issues.map Prod.snd).filter (matchesAll (searchConds jtext fl2))).length ≤ limit →
      ∀ d ∈ search jtext ftsR s flt limit, d ∈ search jtext ftsR s fl2 limit) ∧
    (∀ (jtext : JVal → String) (ftsR : String → List DocT) (s : Store3)
        (flt fl2 : SearchFilters) (q : String) (limit : Nat),
      flt.query = some q → fl2.query = some q →
      (∀ c ∈ searchConds jtext fl2, c ∈ searchConds jtext flt) →
      ((ftsR q).filter (matchesAll (searchConds jtext fl2))).length ≤ limit →
      ∀ d ∈ search jtext ftsR s flt limit, d ∈ search jtext ftsR s fl2 limit) := by
  refine ⟨?_, ?_, ?_⟩
  · intro jtext ftsR s flt limit d hd
    cases hq : flt.query with
    | some q =>
      simp only [search, hq] at hd
      exact (List.mem_filter.1 (List.mem_of_mem_take hd)).2
    | none =>
      simp only [search, hq] at hd
      have h1 := List.mem_of_mem_take hd
      rw [List.mem_insertionSort] at h1
      exact (List.mem_filter.1 h1).2
  · intro jtext ftsR s flt fl2 limit hq hq2 hsub hlen d hd
    simp only [search, hq] at hd
    simp only [search, hq2]
    have h1 := List.mem_of_mem_take hd
    rw [List.mem_insertionSort] at h1
    have h2 := List.mem_filter.1 h1
    have h3 : d ∈ (s.issues.map Prod.snd).filter (matchesAll (searchConds jtext fl2)) :=
      List.mem_filter.2 ⟨h2.1, matchesAll_mono hsub h2.2⟩
    rw [List.take_of_length_le (by rw [List.length_insertionSort]; exact hlen),
      List.mem_insertionSort]
    exact h3
  · intro jtext ftsR s flt fl2 q limit hq hq2 hsub hlen d hd
    simp only [search, hq] at hd
    simp only [search, hq2]
    have h1 := List.mem_of_mem_take hd
    have h2 := List.mem_filter.1 h1
    have h3 : d ∈ (ftsR q).filter (matchesAll (searchConds jtext fl2)) :=
      List.mem_filter.2 ⟨h2.1, matchesAll_mono hsub h2.2⟩
    rw [List.take_of_length_le hlen]
    exact h3

/-- Witness for C8 (amended) at concrete inputs: every document returned
by the status-X query satisfies its condition list, and with a limit of 2
(no truncation) dropping the status filter keeps `docX` in the result. -/
theorem filter_conjunction_witness :
    matchesAll (searchConds jtext0 fltStatusX) docX = true ∧
    docX ∈ search jtext0 fts0 st8 noFilters 2 := by
  constructor
  · exact filter_conjunction_amended.1 jtext0 fts0 st8 fltStatusX 1 docX
      ((show search jtext0 fts0 st8 fltStatusX 1 = [docX] from rfl) ▸
        List.mem_singleton.2 rfl)
  · exact filter_conjunction_amended.2.1 jtext0 fts0 st8 fltStatusX noFilters 2
      rfl rfl
      (by intro c hc; simp [searchConds, noFilters] at hc)
      (by decide) docX
      ((show search jtext0 fts0 st8 fltStatusX 2 = [docX] from rfl) ▸
        List.mem_singleton.2 rfl)

theorem filter_ne_then_eq (l : List Fts3Row) (k : String) :
    (l.filter (fun r => r.key != k)).filter (fun r => r.key == k) = [] := by
  rw [List.filter_eq_nil_iff]
  intro r hr
  have h := (List.mem_filter.1 hr).2
  simp only [bne_iff_ne, ne_eq] at h
  simp [h]

theorem inv3_preserved {s : Store3} (i : RawIssue) (h : inv3 s) :
    inv3 (insertIssue3 s i) := by
  obtain ⟨hnd, hfts⟩ := h
  constructor
  · exact nodup_map_key_upsertBy Prod.fst _ hnd
  · intro p hp
    simp only [insertIssue3] at hp ⊢
    rcases (mem_upsertBy_iff Prod.fst hnd).1 hp with rfl | ⟨hpmem, hpne⟩
    · rw [List.filter_append, filter_ne_then_eq]
      simp [projFts3]
    · rw [List.filter_append, List.filter_filter]
      have hcong : ∀ r ∈ s.fts,
          ((r.key == p.1) && (r.key != getKeyString (transformIssue i))) =
            (r.key == p.1) := by
        intro r _
        by_cases hr : r.key = p.1
        · simp [hr, hpne]
        · simp [hr]
      rw [List.filter_congr hcong, hfts p hpmem]
      have hkey : ((projFts3 (transformIssue i)).key == p.1) = false := by
        show (getKeyString (transformIssue i) == p.1) = false
        simp only [beq_eq_false_iff_ne, ne_eq]
        exact fun hc => hpne hc.symm
      simp [hkey]

theorem filter_map_proj_eq {l : List ZMsgRow}
    (hnd : (l.map (fun m => m.id)).Nodup) {m : ZMsgRow} (hm : m ∈ l) :
    (l.map projZfts).filter (fun r => r.rowid == m.id) = [projZfts m] := by
  induction l with
  | nil => cases hm
  | cons x t ih =>
    simp only [List.map_cons, List.nodup_cons] at hnd
    rcases List.mem_cons.1 hm with rfl | hm2
    · simp only [List.map_cons, List.filter_cons]
      have hx : ((projZfts m).rowid == m.id) = true := by simp [projZfts]
      rw [if_pos (by simp [hx])]
      have ht : (t.map projZfts).filter (fun r => r.rowid == m.id) = [] := by
        rw [List.filter_eq_nil_iff]
        intro r hr
        rcases List.mem_map.1 hr with ⟨y, hy, rfl⟩
        have : y.id ≠ m.id := fun hc => hnd.1 (hc ▸ List.mem_map_of_mem _ hy)
        simp [projZfts, this]
      rw [ht]
    · simp only [List.map_cons, List.filter_cons]
      have hx : x.id ≠ m.id := by
        intro hc
        exact hnd.1 (hc ▸ List.mem_map_of_mem _ hm2)
      rw [if_neg (by simp [projZfts, hx])]
      exact ih hnd.2 hm2

/-- C1.  The claim asserts that after every ingestion commit each stored
document has exactly one matching index entry, created in the same atomic
unit, never only at end of run.  In `zulip/download.ts` (and likewise
`jira/download.ts`) the FTS table is only rebuilt after all streams are
downloaded: right after the first committed batch the messages table is
non-empty while `messages_fts` is still empty. -/
theorem index_consistency_counterexample :
    (zulipStreamLoop rd0 emptyZStore [ZFetchOutcome.batch [zmsgA] true]).messages ≠ [] ∧
    (zulipStreamLoop rd0 emptyZStore [ZFetchOutcome.batch [zmsgA] true]).fts = [] := by
  constructor
  · decide
  · decide

/-- C1 (amended).  Index consistency, per ingester: part_003's
`insertIssue` maintains the invariant transactionally — starting from the
empty store, after every upsert each stored document has exactly one
`issues_fts` row, equal to the projection re-derived from the document.
In `zulip/download.ts` (and `jira/download.ts`) the invariant instead
holds only after the end-of-run FTS rebuild, which produces exactly one
index row per stored message. -/
theorem index_consistency_amended :
    inv3 emptyStore3 ∧
    (∀ (s : Store3) (i : RawIssue), inv3 s → inv3 (insertIssue3 s i)) ∧
    (∀ db : ZStore, (db.messages.map (fun m => m.id)).Nodup →
      ∀ m ∈ db.messages,
        (rebuildZfts db).fts.filter (fun r => r.rowid == m.id) = [projZfts m]) := by
  refine ⟨⟨List.nodup_nil, ?_⟩, fun s i h => inv3_preserved i h, ?_⟩
  · intro p hp
    cases hp
  · intro db hnd m hm
    exact filter_map_proj_eq hnd hm

/-- Witness for C1 (amended) at concrete inputs: the invariant holds after
upserting one issue into the empty part_003 store, and the rebuilt Zulip
index has exactly the entry of the one stored message. -/
theorem index_consistency_witness :
    inv3 (insertIssue3 emptyStore3 exIssueA) ∧
    (rebuildZfts zStoreW).fts.filter
        (fun r => r.rowid == (mkMsgRow rd0 zmsgA).id) =
      [projZfts (mkMsgRow rd0 zmsgA)] := by
  constructor
  · exact index_consistency_amended.2.1 emptyStore3 exIssueA
      index_consistency_amended.1
  · exact index_consistency_amended.2.2 zStoreW (by decide)
      (mkMsgRow rd0 zmsgA) (by decide)

theorem mem_foldl_upsertBy_sub {α κ : Type} [DecidableEq κ] (key : α → κ) :
    ∀ (S l : List α) (x : α), x ∈ S.foldl (upsertBy key) l → x ∈ l ∨ x ∈ S := by
  intro S
  induction S with
  | nil => intro l x h; exact Or.inl h
  | cons r T ih =>
    intro l x h
    rcases ih _ _ h with h2 | h2
    · rcases mem_upsertBy_sub key h2 with h3 | h3
      · exact Or.inr (h3 ▸ List.mem_cons_self _ _)
      · exact Or.inl h3
    · exact Or.inr (List.mem_cons_of_mem _ h2)

theorem mem_insertMessages {rd : ZRender} {db : ZStore} {msgs : List ZulipMessage}
    {m : ZMsgRow} (h : m ∈ (insertMessages rd db msgs).messages) :
    m ∈ db.messages ∨ ∃ raw ∈ msgs, m = mkMsgRow rd raw := by
  simp only [insertMessages] at h
  rw [show msgs.foldl (fun t x => upsertMsgRow t (mkMsgRow rd x)) db.messages =
      (msgs.map (mkMsgRow rd)).foldl (upsertBy ZMsgRow.id) db.messages from by
    rw [List.foldl_map]; rfl] at h
  rcases mem_foldl_upsertBy_sub ZMsgRow.id _ _ _ h with h2 | h2
  · exact Or.inl h2
  · rcases List.mem_map.1 h2 with ⟨raw, hraw, hrm⟩
    exact Or.inr ⟨raw, hraw, hrm.symm⟩

theorem zulipStreamLoop_streams (rd : ZRender) :
    ∀ (tr : List ZFetchOutcome) (db : ZStore),
      (zulipStreamLoop rd db tr).streams = db.streams := by
  intro tr
  induction tr with
  | nil => intro db; rfl
  | cons o rest ih =>
    intro db
    cases o with
    | failure => rfl
    | batch msgs fn =>
      simp only [zulipStreamLoop]
      split
      · rfl
      · cases fn with
        | true => simp [insertMessages]
        | false => simp [ih, insertMessages]

theorem zulipStreamLoop_messages (rd : ZRender) (sid : Nat) :
    ∀ (tr : List ZFetchOutcome) (db : ZStore),
      (∀ o ∈ tr, ∀ msgs fn, o = ZFetchOutcome.batch msgs fn →
        ∀ m ∈ msgs, m.stream_id = sid) →
      ∀ m ∈ (zulipStreamLoop rd db tr).messages,
        m ∈ db.messages ∨ m.stream_id = sid := by
  intro tr
  induction tr with
  | nil => intro db _ m hm; exact Or.inl hm
  | cons o rest ih =>
    intro db hn m hm
    cases o with
    | failure => exact Or.inl hm
    | batch msgs fn =>
      have hbatch : ∀ x ∈ msgs, x.stream_id = sid :=
        hn _ (List.mem_cons_self _ _) msgs fn rfl
      simp only [zulipStreamLoop] at hm
      by_cases he : msgs.isEmpty
      · rw [if_pos he] at hm
        exact Or.inl hm
      · rw [if_neg he] at hm
        have hstep : ∀ x ∈ (insertMessages rd db msgs).messages,
            x ∈ db.messages ∨ x.stream_id = sid := by
          intro x hx
          rcases mem_insertMessages hx with h2 | ⟨raw, hraw, rfl⟩
          · exact Or.inl h2
          · exact Or.inr (hbatch raw hraw)
        cases fn with
        | true => exact hstep m hm
        | false =>
          rcases ih (insertMessages rd db msgs)
              (fun o ho => hn o (List.mem_cons_of_mem _ ho)) m hm with h2 | h2
          · exact hstep m h2
          · exact Or.inr h2

theorem foldl_insertStream_messages (l : List ZulipStream) :
    ∀ db : ZStore, (l.foldl insertStream db).messages = db.messages := by
  induction l with
  | nil => intro db; rfl
  | cons s t ih => intro db; rw [List.foldl_cons, ih]; rfl

theorem foldl_insertStream_public (l : List ZulipStream) :
    ∀ db : ZStore, (∀ st ∈ db.streams, st.is_web_public = true) →
      (∀ s ∈ l, s.is_web_public = true) →
      ∀ st ∈ (l.foldl insertStream db).streams, st.is_web_public = true := by
  induction l with
  | nil => intro db h _; exact h
  | cons s t ih =>
    intro db h hl
    refine ih _ ?_ (fun x hx => hl x (List.mem_cons_of_mem _ hx))
    intro st hst
    rcases mem_upsertBy_sub ZStreamRow.id hst with rfl | h2
    · exact hl s (List.mem_cons_self _ _)
    · exact h st h2

theorem foldl_insertStream_id_mono (l : List ZulipStream) :
    ∀ (db : ZStore) (i : Nat), i ∈ db.streams.map ZStreamRow.id →
      i ∈ (l.foldl insertStream db).streams.map ZStreamRow.id := by
  induction l with
  | nil => intro db i h; exact h
  | cons s t ih =>
    intro db i h
    exact ih _ i (mem_map_key_upsertBy_of_mem ZStreamRow.id _ h)

theorem foldl_insertStream_id_mem (l : List ZulipStream) :
    ∀ (db : ZStore) (s : ZulipStream), s ∈ l →
      s.stream_id ∈ (l.foldl insertStream db).streams.map ZStreamRow.id := by
  induction l with
  | nil => intro db s h; cases h
  | cons x t ih =>
    intro db s hs
    rcases List.mem_cons.1 hs with rfl | hs2
    · exact foldl_insertStream_id_mono t _ _
        (keyr_mem_upsertBy ZStreamRow.id db.streams _)
    · exact ih _ s hs2

theorem foldl_streamLoops_inv (rd : ZRender) (traces : Nat → List ZFetchOutcome)
    (hN : NarrowOk traces) (l : List ZulipStream) :
    ∀ db : ZStore,
      (∀ m ∈ db.messages, m.stream_id ∈ db.streams.map ZStreamRow.id) →
      (∀ s ∈ l, s.stream_id ∈ db.streams.map ZStreamRow.id) →
      (l.foldl (fun db st => zulipStreamLoop rd db (traces st.stream_id)) db).streams
          = db.streams ∧
      ∀ m ∈ (l.foldl (fun db st =>
            zulipStreamLoop rd db (traces st.stream_id)) db).messages,
        m.stream_id ∈ db.streams.map ZStreamRow.id := by
  induction l with
  | nil => intro db h _; exact ⟨rfl, h⟩
  | cons s t ih =>
    intro db h hl
    have hst := zulipStreamLoop_streams rd (traces s.stream_id) db
    have hmsg : ∀ m ∈ (zulipStreamLoop rd db (traces s.stream_id)).messages,
        m.stream_id ∈ db.streams.map ZStreamRow.id := by
      intro m hm
      rcases zulipStreamLoop_messages rd s.stream_id (traces s.stream_id) db
          (fun o ho msgs fn heq => hN s.stream_id o ho msgs fn heq) m hm with h2 | h2
      · exact h m h2
      · exact h2 ▸ hl s (List.mem_cons_self _ _)
    have := ih (zulipStreamLoop rd db (traces s.stream_id))
      (by rw [hst]; exact hmsg)
      (by rw [hst]; exact fun x hx => hl x (List.mem_cons_of_mem _ hx))
    rw [List.foldl_cons]
    exact ⟨this.1.trans hst, by rw [← hst]; exact this.2⟩

/-- C10.  Chat-corpus ingestion filters to web-public streams before any
download: starting from a store satisfying the web-public invariant (in
particular the empty store of a fresh run), any run under the Zulip
`narrow` guarantee leaves every stream row web-public and every message
row referencing a stored (web-public) stream. -/
theorem web_public_only :
    zInv emptyZStore ∧
    (∀ (rd : ZRender) (allStreams : List ZulipStream)
        (traces : Nat → List ZFetchOutcome) (db0 : ZStore),
      NarrowOk traces → zInv db0 → zInv (zulipRun rd allStreams traces db0)) := by
  constructor
  · refine ⟨?_, ?_⟩
    · intro st h
      simp [emptyZStore] at h
    · intro m h
      simp [emptyZStore] at h
  · intro rd allStreams traces db0 hN hinv
    obtain ⟨hpub0, hmsg0⟩ := hinv
    simp only [zulipRun]
    set pubs := allStreams.filter (fun s => s.is_web_public) with hpubs
    have hpubl : ∀ s ∈ pubs, s.is_web_public = true := by
      intro s hs
      exact (List.mem_filter.1 hs).2
    set db1 := pubs.foldl insertStream db0 with hdb1
    have h1pub : ∀ st ∈ db1.streams, st.is_web_public = true :=
      foldl_insertStream_public pubs db0 hpub0 hpubl
    have h1msgs : db1.messages = db0.messages := foldl_insertStream_messages pubs db0
    have h1ref : ∀ m ∈ db1.messages, m.stream_id ∈ db1.streams.map ZStreamRow.id := by
      intro m hm
      rw [h1msgs] at hm
      rcases hmsg0 m hm with ⟨st, hst, hid⟩
      exact foldl_insertStream_id_mono pubs db0 _
        (hid ▸ List.mem_map_of_mem _ hst)
    have h1ids : ∀ s ∈ pubs, s.stream_id ∈ db1.streams.map ZStreamRow.id :=
      fun s hs => foldl_insertStream_id_mem pubs db0 s hs
    obtain ⟨h2streams, h2msgs⟩ := foldl_streamLoops_inv rd traces hN pubs db1 h1ref h1ids
    set db2 := pubs.foldl (fun db st => zulipStreamLoop rd db (traces st.stream_id)) db1
      with hdb2
    constructor
    · intro st hst
      simp only [updateStreamCounts, rebuildZfts] at hst
      rcases List.mem_map.1 hst with ⟨st0, hst0, rfl⟩
      exact h1pub st0 (h2streams ▸ hst0)
    · intro m hm
      simp only [updateStreamCounts, rebuildZfts] at hm ⊢
      have h3 := h2msgs m hm
      rw [← h2streams] at h3
      rcases List.mem_map.1 h3 with ⟨st0, hst0, hid⟩
      exact ⟨_, List.mem_map_of_mem _ hst0, hid⟩

/-- A narrow-correct trace set: stream 2 yields its one message, all other
streams yield nothing. -/
def tracesW : Nat → List ZFetchOutcome :=
  fun sid => if sid = 2 then [ZFetchOutcome.batch [zmsgB] true] else []

theorem tracesW_narrowOk : NarrowOk tracesW := by
  intro sid o ho msgs fn heq m hm
  by_cases h2 : sid = 2
  · subst h2
    simp [tracesW] at ho
    subst ho
    cases heq
    simp only [List.mem_singleton] at hm
    subst hm
    rfl
  · simp [tracesW, h2] at ho

/-- Witness for C10 at concrete inputs: a fresh run over one private and
one public stream satisfies the web-public invariant. -/
theorem web_public_only_witness :
    zInv (zulipRun rd0 [zstream1, zstream2] tracesW emptyZStore) :=
  web_public_only.2 rd0 [zstream1, zstream2] tracesW emptyZStore
    tracesW_narrowOk web_public_only.1

/-- Witness for C7 (amended) at concrete inputs: the unified search
without a full-text expression is sorted by `updated_at` descending,
bounded by the limit, and filter-respecting. -/
theorem query_ordering_amended_witness :
    List.Sorted (updDesc jtext0) (search jtext0 fts0 st8 noFilters 1) ∧
    (search jtext0 fts0 st8 noFilters 1).length ≤ 1 ∧
    ∀ d ∈ search jtext0 fts0 st8 noFilters 1,
      matchesAll (searchConds jtext0 noFilters) d = true :=
  query_ordering_amended.1 jtext0 fts0 st8 noFilters 1 rfl

/-- Every top-level key `transformIssue` can ever emit: the fixed standard
fields it assigns explicitly, plus the semantic names of `FIELD_MAP`. -/
def allowedDocKeys : List String :=
  ["key", "url", "summary", "description", "status", "resolution", "priority",
   "issue_type", "created_at", "updated_at", "resolved_at", "reporter",
   "assignee", "creator", "labels", "components", "attachments", "comments",
   "subtasks", "issue_links"] ++ FIELD_MAP.map Prod.snd

/-- All serialized keys of the record lie in the allowed key list. -/
abbrev KeysIn (d : DocT) : Prop :=
  ∀ q ∈ d.map Prod.fst, q ∈ allowedDocKeys

theorem keysIn_setK {d : DocT} {k : String} {v : JVal}
    (hk : k ∈ allowedDocKeys) (hd : KeysIn d) : KeysIn (setK d k v) := by
  intro q hq
  rcases mem_map_fst_setK hq with rfl | h
  · exact hk
  · exact hd q h

theorem keysIn_ite {c : Prop} [Decidable c] {a b : DocT}
    (ha : KeysIn a) (hb : KeysIn b) : KeysIn (if c then a else b) := by
  by_cases h : c
  · rwa [if_pos h]
  · rwa [if_neg h]

theorem keysIn_base (v1 v2 : JVal) : KeysIn [("key", v1), ("url", v2)] := by
  intro q hq
  simp only [List.map_cons, List.map_nil, List.mem_cons, List.not_mem_nil,
    or_false] at hq
  rcases hq with rfl | rfl
  · decide
  · decide

theorem keysIn_foldl (g : String → JVal) (es : List (String × String)) :
    ∀ d : DocT, KeysIn d →
      (∀ e ∈ es, e.2 ∈ allowedDocKeys) →
      KeysIn (es.foldl (fun d p =>
        if !isNull (extractValue (g p.1)) && !isUndef (extractValue (g p.1)) then
          setK d p.2 (extractValue (g p.1))
        else d) d) := by
  induction es with
  | nil => intro d hd _; exact hd
  | cons e t ih =>
    intro d hd hes
    rw [List.foldl_cons]
    refine ih _ ?_ (fun x hx => hes x (List.mem_cons_of_mem _ hx))
    by_cases hc : (!isNull (extractValue (g e.1)) && !isUndef (extractValue (g e.1))) = true
    · rw [if_pos hc]
      exact keysIn_setK (hes e (List.mem_cons_self _ _)) hd
    · rw [if_neg hc]
      exact hd

theorem lookupD_foldl_unset (g : String → JVal) (es : List (String × String)) :
    ∀ (d : DocT) (k : String), (∀ e ∈ es, e.2 ≠ k) →
      lookupD (es.foldl (fun d p =>
          if !isNull (extractValue (g p.1)) && !isUndef (extractValue (g p.1)) then
            setK d p.2 (extractValue (g p.1))
          else d) d) k = lookupD d k := by
  induction es with
  | nil => intro d k _; rfl
  | cons e t ih =>
    intro d k h
    rw [List.foldl_cons, ih _ _ (fun x hx => h x (List.mem_cons_of_mem _ hx))]
    by_cases hc : (!isNull (extractValue (g e.1)) && !isUndef (extractValue (g e.1))) = true
    · rw [if_pos hc]
      exact lookupD_setK_ne _ _ (h e (List.mem_cons_self _ _))
    · rw [if_neg hc]

theorem lookupD_foldl_set (g : String → JVal) (es : List (String × String)) :
    ∀ (d : DocT) (e : String × String), e ∈ es → (es.map Prod.snd).Nodup →
      (!isNull (extractValue (g e.1)) && !isUndef (extractValue (g e.1))) = true →
      lookupD (es.foldl (fun d p =>
          if !isNull (extractValue (g p.1)) && !isUndef (extractValue (g p.1)) then
            setK d p.2 (extractValue (g p.1))
          else d) d) e.2 =
        some (extractValue (g e.1)) := by
  induction es with
  | nil => intro d e he _ _; cases he
  | cons f t ih =>
    intro d e he hnd hv
    simp only [List.map_cons, List.nodup_cons] at hnd
    rw [List.foldl_cons]
    rcases List.mem_cons.1 he with rfl | he2
    · rw [lookupD_foldl_unset g t _ _
        (fun x hx hc => hnd.1 (by rw [← hc]; exact List.mem_map_of_mem Prod.snd hx))]
      rw [if_pos hv]
      exact lookupD_setK_self _ _ _
    · exact ih _ e he2 hnd.2 hv

/-- A raw issue carrying a field in neither `FIELD_MAP` nor
`SKIP_FIELDS`. -/
def exRawC2 : RawIssue :=
  ⟨"FHIR-1", .obj [("summary", .str "s"), ("customfield_99999", .str "x")]⟩

/-- C2.  The claim asserts every raw field outside the rename table and
the exclusion set passes through into the canonical document under its
raw identifier.  `customfield_99999` is in neither table, yet
`transformIssue` drops it — the transformer emits only its fixed standard
fields plus renamed `FIELD_MAP` fields and never passes unknown fields
through (`SKIP_FIELDS` is not even consulted). -/
theorem transform_passthrough_counterexample :
    lookupD (transformIssue exRawC2) "customfield_99999" = none ∧
    ("customfield_99999" ∈ FIELD_MAP.map Prod.fst → False) ∧
    ("customfield_99999" ∈ SKIP_FIELDS → False) ∧
    lookupD (transformIssue exRawC2) "summary" = some (.str "s") := by
  exact ⟨rfl, by decide, by decide, rfl⟩

/-- C2 (amended).  The transformer relabels exactly the `FIELD_MAP`
fields whose extracted value is non-null: every serialized key of the
canonical document is either one of the fixed standard fields or a
`FIELD_MAP` semantic name (so no other raw field passes through), and for
every `FIELD_MAP` entry whose raw field extracts to a non-null,
non-undefined value the document carries that value under the semantic
name. -/
theorem transform_field_map_amended :
    (∀ (raw : RawIssue) (q : String),
      q ∈ docKeys (transformIssue raw) → q ∈ allowedDocKeys) ∧
    (∀ (raw : RawIssue) (e : String × String), e ∈ FIELD_MAP →
      isNull (extractValue (getField raw.fields e.1)) = false →
      isUndef (extractValue (getField raw.fields e.1)) = false →
      lookupD (transformIssue raw) e.2 =
        some (extractValue (getField raw.fields e.1))) := by
  constructor
  · intro raw q hq
    have hq2 : q ∈ (transformIssue raw).map Prod.fst := by
      simp only [docKeys] at hq
      rcases List.mem_map.1 hq with ⟨p, hp, rfl⟩
      exact List.mem_map_of_mem _ (List.mem_of_mem_filter hp)
    revert hq2
    show q ∈ (transformIssue raw).map Prod.fst → q ∈ allowedDocKeys
    simp only [transformIssue]
    intro hq2
    revert hq2
    refine keysIn_foldl (fun k => getField raw.fields k) FIELD_MAP _ ?_ (by decide) q
    repeat'
      first
      | refine keysIn_setK (by decide) ?_
      | refine keysIn_ite ?_ ?_
      | exact keysIn_base _ _
      | split
  · intro raw e he hnull hundef
    simp only [transformIssue]
    exact lookupD_foldl_set (fun k => getField raw.fields k) FIELD_MAP _ e he
      (by decide) (by simp [hnull, hundef])

/-- A raw issue with one renamed custom field. -/
def exRawW : RawIssue :=
  ⟨"FHIR-3", .obj [("customfield_11302", .str "FHIR-core")]⟩

/-- Witness for C2 (amended) at concrete inputs: the emitted key
`specification` is in the allowed set, and the custom field value lands
under its semantic name. -/
theorem transform_field_map_witness :
    "specification" ∈ allowedDocKeys ∧
    lookupD (transformIssue exRawW) "specification" = some (.str "FHIR-core") := by
  constructor
  · exact transform_field_map_amended.1 exRawW "specification" (by decide)
  · have h := transform_field_map_amended.2 exRawW
      ("customfield_11302", "specification") (by decide) rfl rfl
    exact h.trans (by rfl)

end FhirSearch
